import Mathlib

/-!
Shallow embedding of `src/day_8/src/lib.rs` (Advent of Code day 8:
incremental-connectivity engine).

Modelling conventions:
* Rust `u64` / `usize` values are modelled as `Nat`; the spec states a caller
  contract that coordinate magnitudes are small enough that no arithmetic
  overflows, so overflow reduction is not load-bearing for any claim.
* Rust panics (out-of-bounds vector indexing, unbounded recursion) are
  modelled as `Except PanicKind` outcomes; `PanicKind.stackOverflow` is the
  outcome of the fuel counter that models the call stack of the recursive
  `find`.  Lemmas show that in reachable states the fuel is never exhausted
  and no index is ever out of range.
* Mutation of `&mut self` is modelled by explicit state passing: `find`
  returns the discovered root together with the state after path compression.
-/

namespace Day8

/-- Rust `struct Position(u64, u64, u64)`. -/
structure Position where
  x : Nat
  y : Nat
  z : Nat
deriving DecidableEq, Repr

/-- Rust `u64::abs_diff`: absolute difference on unsigned integers. -/
def absDiff (a b : Nat) : Nat := (a - b) + (b - a)

/-- Rust `Position::distance`: squared Euclidean distance between two 3D
points, in integer arithmetic (no `sqrt`). -/
def distance (a b : Position) : Nat :=
  let dx := absDiff a.x b.x
  let dy := absDiff a.y b.y
  let dz := absDiff a.z b.z
  dx * dx + dy * dy + dz * dz

/-- Reading `positions[i]`; the default is irrelevant because all uses are at
indices below the length (the fallible read used by the driver is `readIdx`). -/
def posAt (ps : List Position) (i : Nat) : Position := ps.getD i ⟨0, 0, 0⟩

/-- An edge triple `(distance, i, j)` as produced by the neighbor ranker. -/
abbrev Edge := Nat × Nat × Nat

/-- The comparator of the Rust sort call: `|a, b| a.0.cmp(&b.0)`, compare by
the distance component only.  Rust `sort_by` is a stable sort, so the sorted
list is uniquely determined by this relation and the input order; the
embedding uses the structurally recursive stable `insertionSort`. -/
def edgeLE (a b : Edge) : Prop := a.1 ≤ b.1

instance : DecidableRel edgeLE := fun a b => Nat.decLe a.1 b.1

instance : IsTotal Edge edgeLE := ⟨fun a b => Nat.le_total a.1 b.1⟩

instance : IsTrans Edge edgeLE := ⟨fun a b c hab hbc => Nat.le_trans hab hbc⟩

/-- The nested loop of `BruteForceAlgorithm::closest_neighbors`: for each
`first_index` `i`, pair it with every `other_index` `j` obtained by skipping
the first `i + 1` positions, pushing `(distance, i, j)`. -/
def allPairs (ps : List Position) : List Edge :=
  (List.range ps.length).flatMap (fun i =>
    (List.range' (i + 1) (ps.length - (i + 1))).map (fun j =>
      (distance (posAt ps i) (posAt ps j), i, j)))

namespace BruteForceAlgorithm

/-- Rust `BruteForceAlgorithm::closest_neighbors`: enumerate all pairs,
stable-sort by distance, take the first `k`. -/
def closest_neighbors (ps : List Position) (k : Nat) : List Edge :=
  ((allPairs ps).insertionSort edgeLE).take k

end BruteForceAlgorithm

/-- The two ways the Rust code can panic: vector indexing out of bounds, and
call-stack exhaustion of the recursive `find` (modelled by fuel). -/
inductive PanicKind where
  | indexOutOfBounds
  | stackOverflow
deriving DecidableEq, Repr

/-- Rust `v[i]` read: panics when the index is out of bounds. -/
def readIdx {α : Type} (l : List α) (i : Nat) : Except PanicKind α :=
  match l[i]? with
  | some v => .ok v
  | none => .error .indexOutOfBounds

/-- Rust `v[i] = x` write: panics when the index is out of bounds. -/
def writeIdx {α : Type} (l : List α) (i : Nat) (v : α) : Except PanicKind (List α) :=
  if i < l.length then .ok (l.set i v) else .error .indexOutOfBounds

instance exceptDecEq {ε α : Type} [DecidableEq ε] [DecidableEq α] :
    DecidableEq (Except ε α) := fun x y =>
  match x, y with
  | .ok a, .ok b =>
    if h : a = b then isTrue (by rw [h]) else isFalse (fun hh => h (by injection hh))
  | .error e, .error f =>
    if h : e = f then isTrue (by rw [h]) else isFalse (fun hh => h (by injection hh))
  | .ok _, .error _ => isFalse (fun hh => by injection hh)
  | .error _, .ok _ => isFalse (fun hh => by injection hh)

/-- Rust `struct UnionFind { parent: Vec<usize>, size: Vec<usize> }`. -/
structure UnionFind where
  parent : List Nat
  size : List Nat
deriving DecidableEq, Repr

namespace UnionFind

/-- Rust `UnionFind::new(n)`: `parent = (0..n).collect()`, `size = vec![1; n]`. -/
def new (n : Nat) : UnionFind :=
  { parent := List.range n, size := List.replicate n 1 }

/-- The recursive body of `UnionFind::find` with an explicit fuel counter
modelling the call stack: look up `parent[i]`; if it is `i`, `i` is the root;
otherwise recursively find the root of `parent[i]` and re-point `parent[i]`
directly at it (path compression). -/
def findAux : Nat → UnionFind → Nat → Except PanicKind (Nat × UnionFind)
  | 0, _, _ => .error .stackOverflow
  | fuel + 1, uf, i => do
    let p ← readIdx uf.parent i
    if p = i then
      .ok (i, uf)
    else do
      let (root, uf') ← findAux fuel uf p
      let newParent ← writeIdx uf'.parent i root
      .ok (root, { uf' with parent := newParent })

/-- Rust `UnionFind::find(i)`: the fuel `parent.length + 1` is enough for any
acyclic parent chain, and the invariant lemmas show it is never exhausted in a
reachable state. -/
def find (uf : UnionFind) (i : Nat) : Except PanicKind (Nat × UnionFind) :=
  findAux (uf.parent.length + 1) uf i

/-- Rust `UnionFind::union(i, j)`: resolve both roots, do nothing when they
agree, otherwise merge the smaller set into the larger and add the sizes. -/
def union (uf : UnionFind) (i j : Nat) : Except PanicKind UnionFind := do
  let (rootI, uf1) ← uf.find i
  let (rootJ, uf2) ← uf1.find j
  if rootI = rootJ then
    .ok uf2
  else do
    let si ← readIdx uf2.size rootI
    let sj ← readIdx uf2.size rootJ
    if si < sj then do
      let p ← writeIdx uf2.parent rootI rootJ
      let s ← writeIdx uf2.size rootJ (sj + si)
      .ok { parent := p, size := s }
    else do
      let p ← writeIdx uf2.parent rootJ rootI
      let s ← writeIdx uf2.size rootI (si + sj)
      .ok { parent := p, size := s }

/-- The loop of `UnionFind::get_all_circuit_sizes` over a list of indices:
collect `size[i]` for every `i` with `parent[i] == i`. -/
def circuitSizesAux (uf : UnionFind) : List Nat → Except PanicKind (List Nat)
  | [] => .ok []
  | i :: rest => do
    let p ← readIdx uf.parent i
    if p = i then do
      let s ← readIdx uf.size i
      let others ← circuitSizesAux uf rest
      .ok (s :: others)
    else
      circuitSizesAux uf rest

/-- Rust `UnionFind::get_all_circuit_sizes`: sizes stored at the roots, in
index order. -/
def get_all_circuit_sizes (uf : UnionFind) : Except PanicKind (List Nat) :=
  circuitSizesAux uf (List.range uf.parent.length)

/-- Rust `UnionFind::all_connected`: `size[find(0)] == parent.len()`. -/
def all_connected (uf : UnionFind) : Except PanicKind (Bool × UnionFind) := do
  let (root, uf') ← uf.find 0
  let s ← readIdx uf'.size root
  .ok (decide (s = uf'.parent.length), uf')

end UnionFind

/-- The `for (_, i, j) in closest_neighbors { uf.union(i, j) }` loop shared by
both solution drivers. -/
def unionAll : UnionFind → List Edge → Except PanicKind UnionFind
  | uf, [] => .ok uf
  | uf, e :: rest => do
    let uf' ← uf.union e.2.1 e.2.2
    unionAll uf' rest

/-- Rust `solution_part_1` after input parsing: union the `n` closest edges,
collect the circuit sizes, sort ascending, reverse, and return the product of
the first three entries (Rust panics with an index error when fewer than three
circuits exist). -/
def solution_part_1 (positions : List Position) (n : Nat) : Except PanicKind Nat := do
  let cn := BruteForceAlgorithm.closest_neighbors positions n
  let uf ← unionAll (UnionFind.new positions.length) cn
  let circuitSizes ← uf.get_all_circuit_sizes
  let sorted := (circuitSizes.insertionSort (· ≤ ·)).reverse
  let a ← readIdx sorted 0
  let b ← readIdx sorted 1
  let c ← readIdx sorted 2
  .ok (a * b * c)

/-- The single error value of Rust `solution_part_2`:
`Err("Could not connect all points")`. -/
inductive Part2Err where
  | notConnected
deriving DecidableEq, Repr

/-- The edge loop of `solution_part_2`: union each edge in turn, then test
`all_connected`; on the first success return the product of the X coordinates
of the two endpoint points; when the edges run out, report `notConnected`. -/
def part2Loop (positions : List Position) :
    List Edge → UnionFind → Except PanicKind (Except Part2Err Nat)
  | [], _ => .ok (.error .notConnected)
  | e :: rest, uf => do
    let uf' ← uf.union e.2.1 e.2.2
    let (connected, uf'') ← uf'.all_connected
    if connected then do
      let pi ← readIdx positions e.2.1
      let pj ← readIdx positions e.2.2
      .ok (.ok (pi.x * pj.x))
    else
      part2Loop positions rest uf''

/-- Rust `solution_part_2` after input parsing: scan the ranked edges in
ascending order and stop at the first edge whose union makes the forest fully
connected. -/
def solution_part_2 (positions : List Position) (n : Nat) :
    Except PanicKind (Except Part2Err Nat) :=
  part2Loop positions (BruteForceAlgorithm.closest_neighbors positions n)
    (UnionFind.new positions.length)

/-! ### Specification-level definitions used by the proofs -/

/-- The parent lookup `parent[i]` as a total function; the default value `i`
is never reached at the indices the lemmas use (all below `parent.length`). -/
def pa (p : List Nat) (i : Nat) : Nat := p.getD i i

/-- `Rooted p i r k`: starting from `i`, following parent pointers for `k`
steps reaches `r`, and `r` is a fixpoint of the parent map (a root). -/
inductive Rooted (p : List Nat) : Nat → Nat → Nat → Prop where
  | self {i : Nat} : pa p i = i → Rooted p i i 0
  | step {i r k : Nat} : pa p i ≠ i → Rooted p (pa p i) r k → Rooted p i r (k + 1)

/-- Iterated parent lookup. -/
def iterPa (p : List Nat) : Nat → Nat → Nat
  | 0, i => i
  | m + 1, i => iterPa p m (pa p i)

/-- Fueled pure computation of the representative of `i` (no path
compression, no mutation). -/
def rootGo (p : List Nat) : Nat → Nat → Nat
  | 0, i => i
  | fuel + 1, i => if pa p i = i then i else rootGo p fuel (pa p i)

/-- The representative of `i` in the parent forest `p`; fuel `p.length`
suffices because any rooted chain has fewer than `p.length` steps. -/
def rootOf (p : List Nat) (i : Nat) : Nat := rootGo p p.length i

/-- The invariant of every reachable `UnionFind` state: both vectors have the
same length, parent entries stay in range, every parent chain terminates at a
root, and the size stored at the root of `i` counts exactly the indices whose
chain terminates at that same root. -/
structure Inv (uf : UnionFind) : Prop where
  sizeLen : uf.size.length = uf.parent.length
  parentLt : ∀ i, i < uf.parent.length → pa uf.parent i < uf.parent.length
  rooted : ∀ i, i < uf.parent.length → ∃ r k, Rooted uf.parent i r k
  sizeEq : ∀ r, r < uf.parent.length → pa uf.parent r = r →
    uf.size.getD r 0 =
      ((List.range uf.parent.length).filter
        (fun j => decide (rootOf uf.parent j = r))).length

/-- States reachable from `UnionFind::new(n)` by `union` and `find` calls on
valid indices. -/
inductive Reachable : Nat → UnionFind → Prop where
  | base (n : Nat) : Reachable n (UnionFind.new n)
  | union {n : Nat} {uf uf' : UnionFind} {i j : Nat} :
      Reachable n uf → i < n → j < n → uf.union i j = .ok uf' → Reachable n uf'
  | find {n : Nat} {uf uf' : UnionFind} {i r : Nat} :
      Reachable n uf → i < n → uf.find i = .ok (r, uf') → Reachable n uf'

/-- Number of distinct circuits: the roots are exactly the fixpoints of the
parent map. -/
def componentCount (uf : UnionFind) : Nat :=
  ((List.range uf.parent.length).filter
    (fun i => decide (pa uf.parent i = i))).length

/-- Full connectivity as a predicate on the partition: every index has the
same representative as index 0. -/
def FullyConn (uf : UnionFind) : Prop :=
  ∀ i, i < uf.parent.length → rootOf uf.parent i = rootOf uf.parent 0

instance decidableFullyConn (uf : UnionFind) : Decidable (FullyConn uf) := by
  unfold FullyConn
  infer_instance

/-- The forest obtained from `n` fresh singletons by unioning the edge list
`es` is fully connected (used to state when a prefix of the ranked edge
sequence first connects all points). -/
def ConnAfter (ps : List Position) (es : List Edge) : Prop :=
  ∃ uf, unionAll (UnionFind.new ps.length) es = .ok uf ∧ FullyConn uf

/-- Two forests with the same length, the same size vector, the same root
fixpoints and the same representatives: the loop states of the drivers agree
with the plain `unionAll` states up to this relation (path compression inside
`all_connected` moves parent pointers but never changes it). -/
def EquivUF (a b : UnionFind) : Prop :=
  a.parent.length = b.parent.length ∧ a.size = b.size ∧
    (∀ x, pa a.parent x = x ↔ pa b.parent x = x) ∧
    (∀ x, x < a.parent.length → rootOf a.parent x = rootOf b.parent x)

/-! ### Parent-chain theory -/

theorem Rooted.root_fix {p : List Nat} {i r k : Nat} (h : Rooted p i r k) :
    pa p r = r := by
  induction h with
  | self h0 => exact h0
  | step hne hsub ih => exact ih

theorem rooted_unique {p : List Nat} {i r r' k k' : Nat}
    (h : Rooted p i r k) (h' : Rooted p i r' k') : r = r' ∧ k = k' := by
  induction h generalizing k' with
  | self h0 =>
    cases h' with
    | self h1 => exact ⟨rfl, rfl⟩
    | step hne hsub => exact absurd h0 hne
  | step hne hsub ih =>
    cases h' with
    | self h1 => exact absurd h1 hne
    | step hne' hsub' =>
      obtain ⟨hr, hk⟩ := ih hsub'
      exact ⟨hr, by omega⟩

theorem rooted_iter {p : List Nat} {i r k : Nat} (h : Rooted p i r k) :
    ∀ m, m ≤ k → Rooted p (iterPa p m i) r (k - m) := by
  induction h with
  | self h0 =>
    intro m hm
    have : m = 0 := Nat.le_zero.mp hm
    subst this
    exact .self h0
  | @step i r k hne hsub ih =>
    intro m hm
    match m with
    | 0 => exact .step hne hsub
    | m' + 1 =>
      have := ih m' (by omega)
      simpa [iterPa, Nat.succ_sub_succ] using this

theorem rooted_iter_ne {p : List Nat} {i r k : Nat} (h : Rooted p i r k) :
    ∀ a b, a < b → b ≤ k → iterPa p a i ≠ iterPa p b i := by
  intro a b hab hbk heq
  have h1 := rooted_iter h a (by omega)
  have h2 := rooted_iter h b hbk
  rw [heq] at h1
  have := (rooted_unique h1 h2).2
  omega

theorem iterPa_lt {p : List Nat} (hb : ∀ x, x < p.length → pa p x < p.length) :
    ∀ m i, i < p.length → iterPa p m i < p.length := by
  intro m
  induction m with
  | zero => intro i hi; exact hi
  | succ m ih => intro i hi; exact ih (pa p i) (hb i hi)

theorem rooted_k_lt {p : List Nat} {i r k : Nat}
    (hb : ∀ x, x < p.length → pa p x < p.length) (hi : i < p.length)
    (h : Rooted p i r k) : k < p.length := by
  have hcard : (Finset.range (k + 1)).card ≤ (Finset.range p.length).card := by
    apply Finset.card_le_card_of_injOn (fun m => iterPa p m i)
    · intro m _
      exact Finset.mem_range.mpr (iterPa_lt hb m i hi)
    · intro a ha b hb' hab
      by_contra hne
      rcases Nat.lt_or_ge a b with hlt | hge
      · exact rooted_iter_ne h a b hlt (by
          have := Finset.mem_range.mp hb'; omega) hab
      · have hlt : b < a := by omega
        exact rooted_iter_ne h b a hlt (by
          have := Finset.mem_range.mp ha; omega) hab.symm
  simp only [Finset.card_range] at hcard
  omega

theorem rootGo_eq {p : List Nat} {i r k : Nat} (h : Rooted p i r k) :
    ∀ fuel, k ≤ fuel → rootGo p fuel i = r := by
  induction h with
  | self h0 =>
    intro fuel _
    match fuel with
    | 0 => rfl
    | fuel + 1 => simp [rootGo, h0]
  | @step i r k hne hsub ih =>
    intro fuel hk
    match fuel with
    | 0 => omega
    | fuel + 1 =>
      simp only [rootGo, if_neg hne]
      exact ih fuel (by omega)

theorem rootOf_eq {p : List Nat} {i r k : Nat}
    (hb : ∀ x, x < p.length → pa p x < p.length) (hi : i < p.length)
    (h : Rooted p i r k) : rootOf p i = r :=
  rootGo_eq h p.length (Nat.le_of_lt (rooted_k_lt hb hi h))

/-- Inside a state satisfying the invariant, `rootOf` computes the root of
the (unique) chain from `i`. -/
theorem inv_rootOf {uf : UnionFind} (hinv : Inv uf) {i : Nat}
    (hi : i < uf.parent.length) :
    ∃ k, Rooted uf.parent i (rootOf uf.parent i) k := by
  obtain ⟨r, k, hr⟩ := hinv.rooted i hi
  have := rootOf_eq hinv.parentLt hi hr
  exact ⟨k, this ▸ hr⟩

theorem rooted_zero_eq {p : List Nat} {x r : Nat} (h : Rooted p x r 0) :
    x = r := by
  cases h
  rfl

theorem rooted_self_zero {p : List Nat} {i k : Nat} (h : Rooted p i i k) :
    k = 0 := by
  by_contra hk
  have hit0 : iterPa p 0 i = i := rfl
  have hitk : iterPa p k i = i := by
    have h2 := rooted_iter h k (Nat.le_refl k)
    simp only [Nat.sub_self] at h2
    exact rooted_zero_eq h2
  exact rooted_iter_ne h 0 k (by omega) (Nat.le_refl k) (hit0.trans hitk.symm)

theorem rooted_zero_fix {p : List Nat} {x r : Nat} (h : Rooted p x r 0) :
    pa p x = x := by
  cases h with
  | self h0 => exact h0

theorem pa_set_ne {p : List Nat} {i x : Nat} (v : Nat) (h : x ≠ i) :
    pa (p.set i v) x = pa p x := by
  simp [pa, List.getD_eq_getElem?_getD, List.getElem?_set_ne (by omega : i ≠ x)]

theorem pa_set_self {p : List Nat} {i : Nat} (v : Nat) (h : i < p.length) :
    pa (p.set i v) i = v := by
  simp [pa, List.getD_eq_getElem?_getD, List.getElem?_set_self h]

theorem pa_lt_of_ne {p : List Nat} {i : Nat} (h : pa p i ≠ i) : i < p.length := by
  by_contra hlen
  have : p[i]? = none := List.getElem?_eq_none (by omega)
  simp [pa, List.getD_eq_getElem?_getD, this] at h

/-- Re-pointing `parent[i]` directly at the root of the chain from `i` (path
compression) preserves every chain root. -/
theorem set_preserves_rooted {p : List Nat} {i r K : Nat}
    (hK : Rooted p i r K) (hi : i < p.length) :
    ∀ x r' k', Rooted p x r' k' → ∃ k'', Rooted (p.set i r) x r' k'' := by
  have hI : ∃ kI, Rooted (p.set i r) i r kI := by
    by_cases h0 : pa p i = i
    · have hr : r = i := (rooted_unique hK (.self h0)).1
      refine ⟨0, ?_⟩
      have hps : pa (p.set i r) i = r := pa_set_self r hi
      rw [hr] at hps ⊢
      exact .self hps
    · have hri : r ≠ i := by
        intro hri
        subst hri
        have := rooted_self_zero hK
        subst this
        exact h0 (rooted_zero_fix hK)
      refine ⟨1, ?_⟩
      have h1 : pa (p.set i r) i = r := pa_set_self r hi
      have h2 : pa (p.set i r) r = r := by
        rw [pa_set_ne r hri, hK.root_fix]
      refine .step (by rw [h1]; exact hri) ?_
      rw [h1]
      exact .self h2
  intro x r' k' h
  induction h with
  | @self x h0 =>
    by_cases hx : x = i
    · subst hx
      have hr : r = x := (rooted_unique hK (.self h0)).1
      exact hr ▸ hI
    · exact ⟨0, .self (by rw [pa_set_ne r hx]; exact h0)⟩
  | @step x r' k hne hsub ih =>
    by_cases hx : x = i
    · subst hx
      have hr : r = r' := (rooted_unique hK (.step hne hsub)).1
      exact hr ▸ hI
    · obtain ⟨k'', hk''⟩ := ih
      refine ⟨k'' + 1, .step ?_ ?_⟩
      · rw [pa_set_ne r hx]; exact hne
      · rw [pa_set_ne r hx]; exact hk''

/-- Path compression does not create or destroy roots. -/
theorem set_preserves_fix {p : List Nat} {i r K : Nat}
    (hK : Rooted p i r K) (hi : i < p.length) :
    ∀ x, pa (p.set i r) x = x ↔ pa p x = x := by
  intro x
  by_cases hx : x = i
  · subst hx
    rw [pa_set_self r hi]
    constructor
    · intro hr
      subst hr
      have := rooted_self_zero hK
      subst this
      exact rooted_zero_fix hK
    · intro h0
      exact (rooted_unique hK (.self h0)).1
  · rw [pa_set_ne r hx]

/-- Attaching the root `rl` under the distinct root `rw` re-roots exactly the
chains that ended at `rl`. -/
theorem attach_rooted {p : List Nat} {rl rw : Nat}
    (hl : pa p rl = rl) (hw : pa p rw = rw) (hne : rl ≠ rw)
    (hllen : rl < p.length) :
    ∀ x r k, Rooted p x r k →
      ∃ k', Rooted (p.set rl rw) x (if r = rl then rw else r) k' := by
  intro x r k h
  induction h with
  | @self x h0 =>
    by_cases hx : x = rl
    · subst hx
      simp only [if_pos rfl]
      refine ⟨1, .step ?_ ?_⟩
      · rw [pa_set_self rw hllen]
        exact fun h => hne (h.symm)
      · rw [pa_set_self rw hllen]
        exact .self (by rw [pa_set_ne rw (fun h => hne h.symm), hw])
    · simp only [if_neg hx]
      exact ⟨0, .self (by rw [pa_set_ne rw hx]; exact h0)⟩
  | @step x r k hne' hsub ih =>
    have hx : x ≠ rl := by
      intro hx
      subst hx
      exact hne' hl
    obtain ⟨k', hk'⟩ := ih
    refine ⟨k' + 1, .step ?_ ?_⟩
    · rw [pa_set_ne rw hx]; exact hne'
    · rw [pa_set_ne rw hx]; exact hk'

/-- Attaching `rl` under `rw` destroys exactly the root `rl`. -/
theorem attach_fix {p : List Nat} {rl rw : Nat}
    (hne : rl ≠ rw) (hllen : rl < p.length) :
    ∀ x, pa (p.set rl rw) x = x ↔ (pa p x = x ∧ x ≠ rl) := by
  intro x
  by_cases hx : x = rl
  · subst hx
    rw [pa_set_self rw hllen]
    constructor
    · intro h
      exact absurd h.symm hne
    · rintro ⟨-, h⟩
      exact absurd rfl h
  · rw [pa_set_ne rw hx]
    simp [hx]

/-! ### Basic facts about the fallible primitives -/

theorem ok_bind {ε α β : Type} (a : α) (f : α → Except ε β) :
    (Except.ok a : Except ε α) >>= f = f a := rfl

theorem error_bind {ε α β : Type} (e : ε) (f : α → Except ε β) :
    (Except.error e : Except ε α) >>= f = .error e := rfl

theorem readIdx_pa {p : List Nat} {i : Nat} (h : i < p.length) :
    readIdx p i = .ok (pa p i) := by
  simp [readIdx, List.getElem?_eq_getElem h, pa, List.getD_eq_getElem?_getD]

theorem readIdx_getD {α : Type} {l : List α} {i : Nat} (h : i < l.length) (d : α) :
    readIdx l i = .ok (l.getD i d) := by
  simp [readIdx, List.getElem?_eq_getElem h, List.getD_eq_getElem?_getD]

theorem readIdx_err {α : Type} {l : List α} {i : Nat} (h : l.length ≤ i) :
    readIdx l i = .error .indexOutOfBounds := by
  simp [readIdx, List.getElem?_eq_none h]

theorem writeIdx_ok {α : Type} {l : List α} {i : Nat} (h : i < l.length) (v : α) :
    writeIdx l i v = .ok (l.set i v) := by
  simp [writeIdx, h]

theorem rooted_root_lt {p : List Nat} {i r k : Nat}
    (hb : ∀ x, x < p.length → pa p x < p.length) (hi : i < p.length)
    (h : Rooted p i r k) : r < p.length := by
  have h2 := rooted_iter h k (Nat.le_refl k)
  simp only [Nat.sub_self] at h2
  have := rooted_zero_eq h2
  rw [← this]
  exact iterPa_lt hb k i hi

theorem rootOf_preserve {pOld pNew : List Nat}
    (hb : ∀ x, x < pOld.length → pa pOld x < pOld.length)
    (hb' : ∀ x, x < pNew.length → pa pNew x < pNew.length)
    (hlen : pNew.length = pOld.length)
    (hr : ∀ x, x < pOld.length → ∃ r k, Rooted pOld x r k)
    (P : ∀ x r k, Rooted pOld x r k → ∃ k', Rooted pNew x r k') :
    ∀ x, x < pOld.length → rootOf pNew x = rootOf pOld x := by
  intro x hx
  obtain ⟨r, k, hrk⟩ := hr x hx
  obtain ⟨k', hrk'⟩ := P x r k hrk
  rw [rootOf_eq hb hx hrk, rootOf_eq hb' (by omega) hrk']

theorem inv_transfer {uf uf' : UnionFind} (hinv : Inv uf)
    (hlen : uf'.parent.length = uf.parent.length)
    (hsize : uf'.size = uf.size)
    (hpl : ∀ x, x < uf'.parent.length → pa uf'.parent x < uf'.parent.length)
    (P : ∀ x r k, Rooted uf.parent x r k → ∃ k', Rooted uf'.parent x r k')
    (hfix : ∀ x, pa uf'.parent x = x ↔ pa uf.parent x = x) : Inv uf' := by
  have hroots : ∀ x, x < uf.parent.length → rootOf uf'.parent x = rootOf uf.parent x :=
    rootOf_preserve hinv.parentLt (hlen ▸ hpl) hlen hinv.rooted P
  refine ⟨?_, hpl, ?_, ?_⟩
  · rw [hsize, hinv.sizeLen, hlen]
  · intro x hx
    obtain ⟨r, k, hrk⟩ := hinv.rooted x (by omega)
    obtain ⟨k', hrk'⟩ := P x r k hrk
    exact ⟨r, k', hrk'⟩
  · intro r hr hfixr
    rw [hsize, hlen]
    have h1 := hinv.sizeEq r (by omega) ((hfix r).mp hfixr)
    rw [h1]
    congr 1
    apply List.filter_congr
    intro j hj
    have hjlt : j < uf.parent.length := List.mem_range.mp hj
    rw [hroots j hjlt]

/-! ### The specification of `find` -/

theorem findAux_ok {uf : UnionFind} (hinv : Inv uf) {i r k : Nat}
    (h : Rooted uf.parent i r k) :
    ∀ fuel, i < uf.parent.length → k < fuel →
    ∃ uf', UnionFind.findAux fuel uf i = .ok (r, uf') ∧
      uf'.size = uf.size ∧ uf'.parent.length = uf.parent.length ∧
      (∀ x r' k', Rooted uf.parent x r' k' → ∃ k'', Rooted uf'.parent x r' k'') ∧
      (∀ x, pa uf'.parent x = x ↔ pa uf.parent x = x) ∧
      Inv uf' := by
  induction h with
  | @self i h0 =>
    intro fuel hi hk
    match fuel with
    | fuel + 1 =>
      refine ⟨uf, ?_, rfl, rfl, fun x r' k' hx => ⟨k', hx⟩, fun x => Iff.rfl, hinv⟩
      simp only [UnionFind.findAux, readIdx_pa hi, ok_bind, if_pos h0]
  | @step i r k hne hsub ih =>
    intro fuel hi hk
    match fuel with
    | fuel + 1 =>
      have hq : pa uf.parent i < uf.parent.length := hinv.parentLt i hi
      obtain ⟨uf1, hFA, hsz1, hlen1, P1, F1, hinv1⟩ := ih fuel hq (by omega)
      have hKi : ∃ K1, Rooted uf1.parent i r K1 := P1 i r (k + 1) (.step hne hsub)
      obtain ⟨K1, hK1⟩ := hKi
      have hi1 : i < uf1.parent.length := by omega
      refine ⟨{ uf1 with parent := uf1.parent.set i r }, ?_, hsz1, ?_, ?_, ?_, ?_⟩
      · simp only [UnionFind.findAux, readIdx_pa hi, ok_bind, if_neg hne, hFA,
          writeIdx_ok hi1 r]
      · simp [hlen1]
      · intro x r' k' hx
        obtain ⟨k'', hk''⟩ := P1 x r' k' hx
        exact set_preserves_rooted hK1 hi1 x r' k'' hk''
      · intro x
        exact (set_preserves_fix hK1 hi1 x).trans (F1 x)
      · refine inv_transfer hinv1 (by simp) rfl ?_ ?_ (set_preserves_fix hK1 hi1)
        · intro x hx
          simp only [List.length_set] at hx ⊢
          by_cases hxi : x = i
          · subst hxi
            rw [pa_set_self r hi1]
            exact (by omega : uf1.parent.length = uf.parent.length) ▸
              (hlen1 ▸ rooted_root_lt hinv1.parentLt hi1 hK1)
          · rw [pa_set_ne r hxi]
            exact hinv1.parentLt x hx
        · exact set_preserves_rooted hK1 hi1

theorem find_ok {uf : UnionFind} (hinv : Inv uf) {i : Nat}
    (hi : i < uf.parent.length) :
    ∃ uf', uf.find i = .ok (rootOf uf.parent i, uf') ∧
      uf'.size = uf.size ∧ uf'.parent.length = uf.parent.length ∧
      (∀ x r' k', Rooted uf.parent x r' k' → ∃ k'', Rooted uf'.parent x r' k'') ∧
      (∀ x, pa uf'.parent x = x ↔ pa uf.parent x = x) ∧
      (∀ x, x < uf.parent.length → rootOf uf'.parent x = rootOf uf.parent x) ∧
      Inv uf' := by
  obtain ⟨rr, k, hrk⟩ := hinv.rooted i hi
  have hro : rootOf uf.parent i = rr := rootOf_eq hinv.parentLt hi hrk
  have hklt : k < uf.parent.length := rooted_k_lt hinv.parentLt hi hrk
  obtain ⟨uf', he, hsz, hlen, P, F, hinv'⟩ :=
    findAux_ok hinv hrk (uf.parent.length + 1) hi (by omega)
  refine ⟨uf', ?_, hsz, hlen, P, F, ?_, hinv'⟩
  · rw [UnionFind.find, he, hro]
  · exact rootOf_preserve hinv.parentLt (hlen ▸ hinv'.parentLt) hlen hinv.rooted P

/-! ### The specification of `union` -/

theorem rootGo_fix {p : List Nat} {r : Nat} (h : pa p r = r) :
    ∀ fuel, rootGo p fuel r = r := by
  intro fuel
  cases fuel with
  | zero => rfl
  | succ fuel => simp [rootGo, h]

theorem rootOf_fix {p : List Nat} {r : Nat} (h : pa p r = r) :
    rootOf p r = r := rootGo_fix h p.length

theorem rootOf_fix_of_inv {uf : UnionFind} (hinv : Inv uf) {i : Nat}
    (hi : i < uf.parent.length) : pa uf.parent (rootOf uf.parent i) = rootOf uf.parent i := by
  obtain ⟨k, hk⟩ := inv_rootOf hinv hi
  exact hk.root_fix

theorem rootOf_lt_of_inv {uf : UnionFind} (hinv : Inv uf) {i : Nat}
    (hi : i < uf.parent.length) : rootOf uf.parent i < uf.parent.length := by
  obtain ⟨k, hk⟩ := inv_rootOf hinv hi
  exact rooted_root_lt hinv.parentLt hi hk

theorem length_filter_or {l : List Nat} {p q : Nat → Bool}
    (h : ∀ x ∈ l, ¬(p x = true ∧ q x = true)) :
    (l.filter (fun x => p x || q x)).length
      = (l.filter p).length + (l.filter q).length := by
  induction l with
  | nil => rfl
  | cons a l ih =>
    have ha := h a (List.mem_cons_self a l)
    have ih' := ih (fun x hx => h x (List.mem_cons_of_mem a hx))
    by_cases hpa : p a = true
    · have hqa : q a = false := by
        cases hq : q a
        · rfl
        · exact absurd ⟨hpa, hq⟩ ha
      simp [List.filter_cons, hpa, hqa, ih'] <;> omega
    · have hpa' : p a = false := by
        cases hp : p a
        · rfl
        · exact absurd hp hpa
      cases hqa : q a
      · simp [List.filter_cons, hpa', hqa, ih'] <;> omega
      · simp [List.filter_cons, hpa', hqa, ih'] <;> omega

/-- The specification of the merge step: attaching root `rl` under the
distinct root `rw` and storing the combined size at `rw` preserves the
invariant, re-roots exactly the members of `rl`, and removes exactly the root
`rl`. -/
theorem merge_ok {uf2 : UnionFind} (hinv2 : Inv uf2) {rl rw : Nat}
    (hrl : pa uf2.parent rl = rl) (hrw : pa uf2.parent rw = rw)
    (hne : rl ≠ rw) (hrl_lt : rl < uf2.parent.length)
    (hrw_lt : rw < uf2.parent.length) :
    Inv { parent := uf2.parent.set rl rw,
          size := uf2.size.set rw (uf2.size.getD rl 0 + uf2.size.getD rw 0) } ∧
    (∀ x, x < uf2.parent.length →
      rootOf (uf2.parent.set rl rw) x =
        if rootOf uf2.parent x = rl then rw else rootOf uf2.parent x) ∧
    (∀ x, pa (uf2.parent.set rl rw) x = x ↔ (pa uf2.parent x = x ∧ x ≠ rl)) := by
  set p' := uf2.parent.set rl rw with hp'
  have hlen' : p'.length = uf2.parent.length := by simp [hp']
  have hfix' := attach_fix (p := uf2.parent) hne hrl_lt
  have hpl' : ∀ x, x < p'.length → pa p' x < p'.length := by
    intro x hx
    rw [hlen'] at hx ⊢
    by_cases hxl : x = rl
    · subst hxl
      rw [pa_set_self rw hrl_lt]
      exact hrw_lt
    · rw [pa_set_ne rw hxl]
      exact hinv2.parentLt x hx
  have hroots' : ∀ x, x < uf2.parent.length →
      rootOf p' x = if rootOf uf2.parent x = rl then rw else rootOf uf2.parent x := by
    intro x hx
    obtain ⟨k, hk⟩ := inv_rootOf hinv2 hx
    obtain ⟨k', hk'⟩ := attach_rooted hrl hrw hne hrl_lt x (rootOf uf2.parent x) k hk
    exact rootOf_eq hpl' (by omega) hk'
  refine ⟨⟨?_, hpl', ?_, ?_⟩, hroots', hfix'⟩
  · simp [hp', hinv2.sizeLen]
  · intro x hx
    rw [hlen'] at hx
    obtain ⟨k, hk⟩ := inv_rootOf hinv2 hx
    obtain ⟨k', hk'⟩ := attach_rooted hrl hrw hne hrl_lt x (rootOf uf2.parent x) k hk
    exact ⟨_, k', hk'⟩
  · intro z hz hzfix
    rw [hlen'] at hz
    have hz2 := (hfix' z).mp hzfix
    obtain ⟨hzfix2, hzl⟩ := hz2
    have hfilter : ∀ w, ((List.range p'.length).filter
        (fun j => decide (rootOf p' j = w))).length =
        ((List.range uf2.parent.length).filter (fun j =>
          decide ((if rootOf uf2.parent j = rl then rw else rootOf uf2.parent j) = w))).length := by
      intro w
      rw [hlen']
      congr 1
      apply List.filter_congr
      intro j hj
      rw [hroots' j (List.mem_range.mp hj)]
    by_cases hzw : z = rw
    · rw [hzw]
      show (uf2.size.set rw _).getD rw 0 = _
      rw [List.getD_eq_getElem?_getD, List.getElem?_set_self (by rw [hinv2.sizeLen]; exact hrw_lt)]
      simp only [Option.getD_some]
      rw [← hzw, hfilter z, hzw]
      have hcongr : ((List.range uf2.parent.length).filter (fun j =>
          decide ((if rootOf uf2.parent j = rl then rw else rootOf uf2.parent j) = rw))).length =
          ((List.range uf2.parent.length).filter (fun j =>
            decide (rootOf uf2.parent j = rl) || decide (rootOf uf2.parent j = rw))).length := by
        congr 1
        apply List.filter_congr
        intro j _
        by_cases hjl : rootOf uf2.parent j = rl
        · simp [hjl]
        · simp [hjl]
      rw [hcongr, length_filter_or (by
        intro x _ hx
        obtain ⟨h1, h2⟩ := hx
        simp only [decide_eq_true_eq] at h1 h2
        exact hne (h1 ▸ h2))]
      rw [hinv2.sizeEq rl hrl_lt hrl, hinv2.sizeEq rw hrw_lt hrw]
    · show (uf2.size.set rw _).getD z 0 = _
      rw [List.getD_eq_getElem?_getD, List.getElem?_set_ne (fun h => hzw h.symm)]
      rw [← List.getD_eq_getElem?_getD]
      rw [hfilter z]
      have hcongr : ((List.range uf2.parent.length).filter (fun j =>
          decide ((if rootOf uf2.parent j = rl then rw else rootOf uf2.parent j) = z))).length =
          ((List.range uf2.parent.length).filter (fun j =>
            decide (rootOf uf2.parent j = z))).length := by
        congr 1
        apply List.filter_congr
        intro j _
        rw [decide_eq_decide]
        by_cases hjl : rootOf uf2.parent j = rl
        · rw [if_pos hjl]
          constructor
          · intro h
            exact absurd h.symm hzw
          · intro h
            exact absurd (hjl.symm.trans h).symm hzl
        · rw [if_neg hjl]
      rw [hcongr]
      exact hinv2.sizeEq z hz hzfix2

theorem union_ok {uf : UnionFind} (hinv : Inv uf) {i j : Nat}
    (hi : i < uf.parent.length) (hj : j < uf.parent.length) :
    ∃ uf', uf.union i j = .ok uf' ∧ Inv uf' ∧
      uf'.parent.length = uf.parent.length ∧
      ((rootOf uf.parent i = rootOf uf.parent j →
        uf'.size = uf.size ∧
        (∀ x, pa uf'.parent x = x ↔ pa uf.parent x = x) ∧
        (∀ x, x < uf.parent.length → rootOf uf'.parent x = rootOf uf.parent x)) ∧
      (rootOf uf.parent i ≠ rootOf uf.parent j →
        ∃ rW rL,
          rW = (if uf.size.getD (rootOf uf.parent i) 0 < uf.size.getD (rootOf uf.parent j) 0
                then rootOf uf.parent j else rootOf uf.parent i) ∧
          rL = (if uf.size.getD (rootOf uf.parent i) 0 < uf.size.getD (rootOf uf.parent j) 0
                then rootOf uf.parent i else rootOf uf.parent j) ∧
          uf'.size = uf.size.set rW (uf.size.getD rL 0 + uf.size.getD rW 0) ∧
          (∀ x, x < uf.parent.length →
            rootOf uf'.parent x =
              if rootOf uf.parent x = rL then rW else rootOf uf.parent x) ∧
          (∀ x, pa uf'.parent x = x ↔ (pa uf.parent x = x ∧ x ≠ rL)))) := by
  obtain ⟨uf1, hf1, hsz1, hlen1, P1, F1, R1, hinv1⟩ := find_ok hinv hi
  obtain ⟨uf2, hf2, hsz2, hlen2, P2, F2, R2, hinv2⟩ :=
    find_ok hinv1 (show j < uf1.parent.length by omega)
  have hrj : rootOf uf1.parent j = rootOf uf.parent j := R1 j hj
  have hlen12 : uf2.parent.length = uf.parent.length := by omega
  have hsz12 : uf2.size = uf.size := hsz2.trans hsz1
  have R12 : ∀ x, x < uf.parent.length →
      rootOf uf2.parent x = rootOf uf.parent x := by
    intro x hx
    exact (R2 x (by omega)).trans (R1 x hx)
  have F12 : ∀ x, pa uf2.parent x = x ↔ pa uf.parent x = x :=
    fun x => (F2 x).trans (F1 x)
  have hri_lt : rootOf uf.parent i < uf.parent.length := rootOf_lt_of_inv hinv hi
  have hrj_lt : rootOf uf.parent j < uf.parent.length := rootOf_lt_of_inv hinv hj
  have hfix_i : pa uf2.parent (rootOf uf.parent i) = rootOf uf.parent i :=
    (F12 _).mpr (rootOf_fix_of_inv hinv hi)
  have hfix_j : pa uf2.parent (rootOf uf.parent j) = rootOf uf.parent j :=
    (F12 _).mpr (rootOf_fix_of_inv hinv hj)
  have hsz2len : uf2.size.length = uf.parent.length := by
    rw [hsz12, hinv.sizeLen]
  have hsi : readIdx uf2.size (rootOf uf.parent i) =
      .ok (uf.size.getD (rootOf uf.parent i) 0) := by
    rw [readIdx_getD (by omega) 0, hsz12]
  have hsj : readIdx uf2.size (rootOf uf.parent j) =
      .ok (uf.size.getD (rootOf uf.parent j) 0) := by
    rw [readIdx_getD (by omega) 0, hsz12]
  by_cases hij : rootOf uf.parent i = rootOf uf.parent j
  · refine ⟨uf2, ?_, hinv2, hlen12, fun _ => ⟨hsz12, F12, R12⟩, fun hne => absurd hij hne⟩
    simp only [UnionFind.union, hf1, ok_bind, hf2, ok_bind, hrj, if_pos hij]
  · by_cases hlt : uf.size.getD (rootOf uf.parent i) 0 < uf.size.getD (rootOf uf.parent j) 0
    · -- the set of root(i) is smaller: attach root(i) under root(j)
      obtain ⟨hinvM, hrootsM, hfixM⟩ :=
        merge_ok hinv2 hfix_i hfix_j hij (by omega) (by omega)
      have hval : uf.size.getD (rootOf uf.parent j) 0 + uf.size.getD (rootOf uf.parent i) 0 =
          uf2.size.getD (rootOf uf.parent i) 0 + uf2.size.getD (rootOf uf.parent j) 0 := by
        rw [hsz12]
        exact Nat.add_comm _ _
      refine ⟨{ parent := uf2.parent.set (rootOf uf.parent i) (rootOf uf.parent j),
                size := uf2.size.set (rootOf uf.parent j)
                  (uf.size.getD (rootOf uf.parent j) 0 + uf.size.getD (rootOf uf.parent i) 0) },
        ?_, ?_, ?_, fun heq => absurd heq hij, fun _ => ?_⟩
      · simp only [UnionFind.union, hf1, ok_bind, hf2, ok_bind, hrj, if_neg hij,
          hsi, hsj, if_pos hlt,
          writeIdx_ok (show rootOf uf.parent i < uf2.parent.length by omega)
            (rootOf uf.parent j),
          writeIdx_ok (show rootOf uf.parent j < uf2.size.length by omega)
            (uf.size.getD (rootOf uf.parent j) 0 + uf.size.getD (rootOf uf.parent i) 0)]
      · rw [hval]
        exact hinvM
      · simp [hlen12]
      · refine ⟨rootOf uf.parent j, rootOf uf.parent i, by rw [if_pos hlt],
          by rw [if_pos hlt], ?_, ?_, ?_⟩
        · show uf2.size.set _ _ = _
          rw [hsz12, Nat.add_comm (uf.size.getD (rootOf uf.parent i) 0)
            (uf.size.getD (rootOf uf.parent j) 0)]
        · intro x hx
          have hthis := hrootsM x (by omega)
          rw [R12 x hx] at hthis
          exact hthis
        · intro x
          exact (hfixM x).trans (by rw [F12 x])
    · -- the set of root(j) is not larger: attach root(j) under root(i)
      obtain ⟨hinvM, hrootsM, hfixM⟩ :=
        merge_ok hinv2 hfix_j hfix_i (fun h => hij h.symm) (by omega) (by omega)
      have hval : uf.size.getD (rootOf uf.parent i) 0 + uf.size.getD (rootOf uf.parent j) 0 =
          uf2.size.getD (rootOf uf.parent j) 0 + uf2.size.getD (rootOf uf.parent i) 0 := by
        rw [hsz12]
        exact Nat.add_comm _ _
      refine ⟨{ parent := uf2.parent.set (rootOf uf.parent j) (rootOf uf.parent i),
                size := uf2.size.set (rootOf uf.parent i)
                  (uf.size.getD (rootOf uf.parent i) 0 + uf.size.getD (rootOf uf.parent j) 0) },
        ?_, ?_, ?_, fun heq => absurd heq hij, fun _ => ?_⟩
      · simp only [UnionFind.union, hf1, ok_bind, hf2, ok_bind, hrj, if_neg hij,
          hsi, hsj, if_neg hlt,
          writeIdx_ok (show rootOf uf.parent j < uf2.parent.length by omega)
            (rootOf uf.parent i),
          writeIdx_ok (show rootOf uf.parent i < uf2.size.length by omega)
            (uf.size.getD (rootOf uf.parent i) 0 + uf.size.getD (rootOf uf.parent j) 0)]
      · rw [hval]
        exact hinvM
      · simp [hlen12]
      · refine ⟨rootOf uf.parent i, rootOf uf.parent j, by rw [if_neg hlt],
          by rw [if_neg hlt], ?_, ?_, ?_⟩
        · show uf2.size.set _ _ = _
          rw [hsz12, Nat.add_comm (uf.size.getD (rootOf uf.parent j) 0)
            (uf.size.getD (rootOf uf.parent i) 0)]
        · intro x hx
          have hthis := hrootsM x (by omega)
          rw [R12 x hx] at hthis
          exact hthis
        · intro x
          exact (hfixM x).trans (by rw [F12 x])

/-! ### The initial state and reachable states -/

theorem pa_range {n i : Nat} : pa (List.range n) i = i := by
  by_cases h : i < n
  · simp [pa, List.getD_eq_getElem?_getD,
      List.getElem?_eq_getElem (by simpa using h : i < (List.range n).length)]
  · have hnone : (List.range n)[i]? = none :=
      List.getElem?_eq_none (by simpa using Nat.le_of_not_lt h)
    simp [pa, List.getD_eq_getElem?_getD, hnone]

theorem filter_eq_range {n r : Nat} (h : r < n) :
    (List.range n).filter (fun j => decide (j = r)) = [r] := by
  induction n with
  | zero => omega
  | succ n ih =>
    rw [List.range_succ, List.filter_append]
    by_cases hr : r = n
    · subst hr
      rw [List.filter_eq_nil_iff.mpr (by
        intro a ha
        simp only [decide_eq_true_eq]
        have := List.mem_range.mp ha
        omega)]
      simp
    · rw [ih (by omega)]
      have hnr : ¬(n = r) := fun hh => hr hh.symm
      simp [hnr]

theorem new_length (n : Nat) : (UnionFind.new n).parent.length = n := by
  simp [UnionFind.new]

theorem new_inv (n : Nat) : Inv (UnionFind.new n) := by
  refine ⟨by simp [UnionFind.new], ?_, ?_, ?_⟩
  · intro i hi
    show pa (List.range n) i < _
    rw [pa_range]
    exact hi
  · intro i _
    exact ⟨i, 0, .self pa_range⟩
  · intro r hr hfix
    have hn : (UnionFind.new n).parent.length = n := new_length n
    rw [hn] at hr
    show (List.replicate n 1).getD r 0 = _
    rw [List.getD_eq_getElem?_getD,
      List.getElem?_eq_getElem (by simpa using hr), List.getElem_replicate,
      Option.getD_some]
    have hfilter : ((List.range (UnionFind.new n).parent.length).filter
        (fun j => decide (rootOf (UnionFind.new n).parent j = r))) =
        (List.range n).filter (fun j => decide (j = r)) := by
      rw [hn]
      apply List.filter_congr
      intro j _
      rw [show rootOf (UnionFind.new n).parent j = j from rootOf_fix pa_range]
    rw [hfilter, filter_eq_range hr]
    rfl

theorem reachable_inv {n : Nat} {uf : UnionFind} (h : Reachable n uf) :
    Inv uf ∧ uf.parent.length = n := by
  induction h with
  | base => exact ⟨new_inv _, new_length _⟩
  | @union uf uf' i j hr hi hj hu ih =>
    obtain ⟨hinv, hlen⟩ := ih
    obtain ⟨uf'', heq, hinv'', hlen'', _⟩ := union_ok hinv (hlen ▸ hi) (hlen ▸ hj)
    rw [hu] at heq
    injection heq with h'
    subst h'
    exact ⟨hinv'', by omega⟩
  | @find uf uf' i r hr hi hf ih =>
    obtain ⟨hinv, hlen⟩ := ih
    obtain ⟨uf'', heq, _, hlen'', _, _, _, hinv''⟩ := find_ok hinv (hlen ▸ hi)
    rw [hf] at heq
    injection heq with h'
    injection h' with h1 h2
    subst h2
    exact ⟨hinv'', by omega⟩

/-! ### The specification of `all_connected` -/

theorem all_connected_ok {uf : UnionFind} (hinv : Inv uf)
    (hn : 0 < uf.parent.length) :
    ∃ b uf', uf.all_connected = .ok (b, uf') ∧
      (b = true ↔ FullyConn uf) ∧
      uf'.size = uf.size ∧ uf'.parent.length = uf.parent.length ∧
      (∀ x, pa uf'.parent x = x ↔ pa uf.parent x = x) ∧
      (∀ x, x < uf.parent.length → rootOf uf'.parent x = rootOf uf.parent x) ∧
      Inv uf' := by
  obtain ⟨uf', hf, hsz, hlen, _, F, R, hinv'⟩ := find_ok hinv hn
  have hr0_lt : rootOf uf.parent 0 < uf.parent.length := rootOf_lt_of_inv hinv hn
  have hread : readIdx uf'.size (rootOf uf.parent 0) =
      .ok (uf.size.getD (rootOf uf.parent 0) 0) := by
    rw [readIdx_getD (by rw [hsz, hinv.sizeLen]; exact hr0_lt) 0, hsz]
  refine ⟨decide (uf.size.getD (rootOf uf.parent 0) 0 = uf.parent.length), uf',
    ?_, ?_, hsz, hlen, F, R, hinv'⟩
  · simp only [UnionFind.all_connected, hf, ok_bind, hread, hlen]
  · rw [decide_eq_true_eq]
    have hfix0 : pa uf.parent (rootOf uf.parent 0) = rootOf uf.parent 0 :=
      rootOf_fix_of_inv hinv hn
    rw [hinv.sizeEq _ hr0_lt hfix0]
    constructor
    · intro hlenEq i hi
      have hfeq : (List.range uf.parent.length).filter
          (fun j => decide (rootOf uf.parent j = rootOf uf.parent 0)) =
          List.range uf.parent.length :=
        (List.filter_sublist _).eq_of_length (by simpa using hlenEq)
      have hmem : i ∈ (List.range uf.parent.length).filter
          (fun j => decide (rootOf uf.parent j = rootOf uf.parent 0)) := by
        rw [hfeq]
        exact List.mem_range.mpr hi
      have := List.of_mem_filter hmem
      simpa using this
    · intro hfc
      have hfeq : (List.range uf.parent.length).filter
          (fun j => decide (rootOf uf.parent j = rootOf uf.parent 0)) =
          List.range uf.parent.length := by
        apply List.filter_eq_self.mpr
        intro a ha
        simp only [decide_eq_true_eq]
        exact hfc a (List.mem_range.mp ha)
      rw [hfeq]
      simp

/-! ### Component counting -/

theorem componentCount_congr {a b : UnionFind} (hlen : a.parent.length = b.parent.length)
    (hfix : ∀ x, pa a.parent x = x ↔ pa b.parent x = x) :
    componentCount a = componentCount b := by
  unfold componentCount
  rw [hlen]
  congr 1
  apply List.filter_congr
  intro j _
  rw [decide_eq_decide]
  exact hfix j

theorem componentCount_new (n : Nat) : componentCount (UnionFind.new n) = n := by
  unfold componentCount
  rw [new_length]
  rw [List.filter_eq_self.mpr (by
    intro a _
    simp only [decide_eq_true_eq]
    exact pa_range)]
  exact List.length_range n

theorem componentCount_le (uf : UnionFind) : componentCount uf ≤ uf.parent.length := by
  unfold componentCount
  calc ((List.range uf.parent.length).filter _).length
      ≤ (List.range uf.parent.length).length := List.length_filter_le _ _
    _ = uf.parent.length := List.length_range _

theorem length_filter_and_ne {p : Nat → Bool} {a : Nat} :
    ∀ {l : List Nat}, l.Nodup → a ∈ l → p a = true →
    (l.filter (fun x => p x && decide (x ≠ a))).length + 1 = (l.filter p).length := by
  intro l
  induction l with
  | nil => intro _ ha; exact absurd ha (List.not_mem_nil a)
  | cons b l ih =>
    intro hnd ha hpa
    obtain ⟨hbl, hndl⟩ := List.nodup_cons.mp hnd
    by_cases hba : b = a
    · subst hba
      have hnotin : ∀ x ∈ l, x ≠ b := fun x hx hxb => hbl (hxb ▸ hx)
      have hcongr : (l.filter (fun x => p x && decide (x ≠ b))) = l.filter p :=
        List.filter_congr (fun x hx => by simp [hnotin x hx])
      rw [List.filter_cons, List.filter_cons, if_neg (by simp),
        if_pos (by simp [hpa]), hcongr]
      simp
    · have ha' : a ∈ l := by
        cases List.mem_cons.mp ha with
        | inl h => exact absurd h.symm hba
        | inr h => exact h
      rw [List.filter_cons, List.filter_cons]
      cases hpb : p b with
      | false =>
        rw [if_neg (by simp [hpb]), if_neg (by simp [hpb])]
        exact ih hndl ha' hpa
      | true =>
        rw [if_pos (by simp [hpb, hba]), if_pos (by simp [hpb])]
        simp only [List.length_cons]
        have := ih hndl ha' hpa
        omega

theorem componentCount_merge {uf uf' : UnionFind}
    (hlen : uf'.parent.length = uf.parent.length)
    {rL : Nat} (hrL_lt : rL < uf.parent.length) (hrLfix : pa uf.parent rL = rL)
    (hfix : ∀ x, pa uf'.parent x = x ↔ (pa uf.parent x = x ∧ x ≠ rL)) :
    componentCount uf' + 1 = componentCount uf := by
  unfold componentCount
  rw [hlen]
  rw [List.filter_congr (fun j _ => by
    show (decide (pa uf'.parent j = j)) =
      (decide (pa uf.parent j = j) && decide (j ≠ rL))
    have hnot : j = rL → ¬ pa uf'.parent j = j := fun h2 hc => ((hfix j).mp hc).2 h2
    by_cases h2 : j = rL
    · rw [h2] at hnot ⊢
      simp [hnot rfl]
    · by_cases h1 : pa uf.parent j = j <;> simp [hfix j, h1, h2])]
  exact length_filter_and_ne (List.nodup_range uf.parent.length)
    (List.mem_range.mpr hrL_lt) (decide_eq_true_eq.mpr hrLfix)

/-! ### Circuit sizes -/

theorem circuitSizesAux_ok {uf : UnionFind}
    (hszlen : uf.size.length = uf.parent.length) :
    ∀ l : List Nat, (∀ i ∈ l, i < uf.parent.length) →
    UnionFind.circuitSizesAux uf l =
      .ok ((l.filter (fun i => decide (pa uf.parent i = i))).map
        (fun i => uf.size.getD i 0)) := by
  intro l
  induction l with
  | nil => intro _; rfl
  | cons i rest ih =>
    intro hl
    have hi : i < uf.parent.length := hl i (List.mem_cons_self i rest)
    have hrest := ih (fun x hx => hl x (List.mem_cons_of_mem i hx))
    by_cases hfix : pa uf.parent i = i
    · simp only [UnionFind.circuitSizesAux, readIdx_pa hi, ok_bind, if_pos hfix,
        readIdx_getD (by omega : i < uf.size.length) 0, hrest, List.filter_cons]
      simp [hfix]
    · simp only [UnionFind.circuitSizesAux, readIdx_pa hi, ok_bind, if_neg hfix,
        hrest, List.filter_cons]
      simp [hfix]

theorem get_all_circuit_sizes_ok {uf : UnionFind} (hinv : Inv uf) :
    uf.get_all_circuit_sizes =
      .ok (((List.range uf.parent.length).filter
        (fun i => decide (pa uf.parent i = i))).map (fun i => uf.size.getD i 0)) :=
  circuitSizesAux_ok hinv.sizeLen _ (fun i hi => List.mem_range.mp hi)

/-! ### The union fold -/

theorem unionAll_ok : ∀ (es : List Edge) (uf : UnionFind), Inv uf →
    (∀ e ∈ es, e.2.1 < uf.parent.length ∧ e.2.2 < uf.parent.length) →
    ∃ uf', unionAll uf es = .ok uf' ∧ Inv uf' ∧
      uf'.parent.length = uf.parent.length := by
  intro es
  induction es with
  | nil => intro uf hinv _; exact ⟨uf, rfl, hinv, rfl⟩
  | cons e rest ih =>
    intro uf hinv hval
    obtain ⟨hei, hej⟩ := hval e (List.mem_cons_self e rest)
    obtain ⟨uf1, he1, hinv1, hlen1, _⟩ := union_ok hinv hei hej
    obtain ⟨uf2, he2, hinv2, hlen2⟩ := ih uf1 hinv1 (fun x hx => by
      have := hval x (List.mem_cons_of_mem e hx)
      omega)
    refine ⟨uf2, ?_, hinv2, by omega⟩
    simp only [unionAll, he1, ok_bind, he2]

/-! ### Properties of the brute-force neighbor ranker -/

theorem mem_allPairs {ps : List Position} {e : Edge} :
    e ∈ allPairs ps ↔ ∃ i j, i < j ∧ j < ps.length ∧
      e = (distance (posAt ps i) (posAt ps j), i, j) := by
  unfold allPairs
  rw [List.mem_flatMap]
  constructor
  · rintro ⟨i, hi, hmap⟩
    rw [List.mem_map] at hmap
    obtain ⟨j, hj, rfl⟩ := hmap
    rw [List.mem_range'] at hj
    obtain ⟨m, hm, rfl⟩ := hj
    exact ⟨i, i + 1 + 1 * m, by omega, by
      have := List.mem_range.mp hi
      omega, rfl⟩
  · rintro ⟨i, j, hij, hjlen, rfl⟩
    refine ⟨i, List.mem_range.mpr (by omega), ?_⟩
    rw [List.mem_map]
    refine ⟨j, ?_, rfl⟩
    rw [List.mem_range']
    exact ⟨j - (i + 1), by omega, by omega⟩

theorem mem_closest_valid {ps : List Position} {k : Nat} {e : Edge}
    (he : e ∈ BruteForceAlgorithm.closest_neighbors ps k) :
    e.2.1 < e.2.2 ∧ e.2.2 < ps.length ∧
      e.1 = distance (posAt ps e.2.1) (posAt ps e.2.2) := by
  have h1 : e ∈ (allPairs ps).insertionSort edgeLE :=
    List.mem_of_mem_take he
  have h2 : e ∈ allPairs ps := (List.mem_insertionSort edgeLE).mp h1
  obtain ⟨i, j, hij, hjlen, rfl⟩ := mem_allPairs.mp h2
  exact ⟨hij, hjlen, rfl⟩

/-! ### Connectivity versus component count -/

theorem length_le_one_of_all_eq {l : List Nat} (hnd : l.Nodup) {a : Nat}
    (h : ∀ x ∈ l, x = a) : l.length ≤ 1 := by
  match l with
  | [] => simp
  | [x] => simp
  | x :: y :: t =>
    have hx := h x (List.mem_cons_self x (y :: t))
    have hy := h y (List.mem_cons_of_mem x (List.mem_cons_self y t))
    obtain ⟨hxn, -⟩ := List.nodup_cons.mp hnd
    have hxy : x = y := hx.trans hy.symm
    have hmem : x ∈ y :: t := by
      rw [hxy]
      exact List.mem_cons_self y t
    exact absurd hmem hxn

theorem fullyConn_count {uf : UnionFind} (hinv : Inv uf)
    (h : FullyConn uf) : componentCount uf ≤ 1 := by
  have hsub : ∀ x ∈ (List.range uf.parent.length).filter
      (fun i => decide (pa uf.parent i = i)), x = rootOf uf.parent 0 := by
    intro x hx
    have hmem := List.mem_of_mem_filter hx
    have hfix := List.of_mem_filter hx
    simp only [decide_eq_true_eq] at hfix
    have hxlt := List.mem_range.mp hmem
    have := h x hxlt
    rw [← this, rootOf_fix hfix]
  exact length_le_one_of_all_eq ((List.nodup_range uf.parent.length).filter _) hsub

/-! ### The edge scan of part 2 -/

theorem part2Loop_exhaust {ps : List Position} :
    ∀ (es : List Edge) (uf : UnionFind), Inv uf → uf.parent.length = ps.length →
    (∀ e ∈ es, e.2.1 < ps.length ∧ e.2.2 < ps.length) →
    es.length + 1 < componentCount uf →
    part2Loop ps es uf = .ok (.error .notConnected) := by
  intro es
  induction es with
  | nil => intro uf _ _ _ _; rfl
  | cons e rest ih =>
    intro uf hinv hlen hval hcount
    obtain ⟨he1, he2⟩ := hval e (List.mem_cons_self e rest)
    obtain ⟨uf1, hu, hinv1, hlen1, hsame, hmerge⟩ :=
      union_ok hinv (hlen ▸ he1) (hlen ▸ he2)
    have hcount1 : rest.length + 2 ≤ componentCount uf1 := by
      by_cases hroots : rootOf uf.parent e.2.1 = rootOf uf.parent e.2.2
      · obtain ⟨hsz, hfix, hroot⟩ := hsame hroots
        have := componentCount_congr hlen1 hfix
        simp only [List.length_cons] at hcount
        omega
      · obtain ⟨rW, rL, hrW, hrL, hszeq, hroot, hfix⟩ := hmerge hroots
        have hrLspec : ∃ w, w < uf.parent.length ∧ rL = rootOf uf.parent w := by
          by_cases hc : uf.size.getD (rootOf uf.parent e.2.1) 0 <
              uf.size.getD (rootOf uf.parent e.2.2) 0
          · rw [if_pos hc] at hrL
            exact ⟨e.2.1, hlen ▸ he1, hrL⟩
          · rw [if_neg hc] at hrL
            exact ⟨e.2.2, hlen ▸ he2, hrL⟩
        obtain ⟨w, hw, hrLw⟩ := hrLspec
        have hrLfix : pa uf.parent rL = rL := by
          rw [hrLw]
          exact rootOf_fix_of_inv hinv hw
        have hrL_lt : rL < uf.parent.length := by
          rw [hrLw]
          exact rootOf_lt_of_inv hinv hw
        have := componentCount_merge hlen1 hrL_lt hrLfix hfix
        simp only [List.length_cons] at hcount
        omega
    have hn2 : 2 ≤ uf1.parent.length :=
      Nat.le_trans (by omega) (componentCount_le uf1)
    obtain ⟨b, uf2, hac, hbiff, hsz2, hlen2, hfix2, hroot2, hinv2⟩ :=
      all_connected_ok hinv1 (by omega)
    have hb : b = false := by
      cases b with
      | false => rfl
      | true =>
        have hfc := hbiff.mp rfl
        have := fullyConn_count hinv1 hfc
        omega
    subst hb
    simp only [part2Loop, hu, ok_bind, hac, ok_bind, Bool.false_eq_true, if_neg,
      reduceIte]
    exact ih uf2 hinv2 (by omega) (fun x hx => hval x (List.mem_cons_of_mem e hx)) (by
      have : componentCount uf2 = componentCount uf1 :=
        componentCount_congr hlen2 hfix2
      simp only [List.length_cons] at hcount
      omega)

/-! ### Congruence of the operations along `EquivUF` -/

theorem equivUF_refl (uf : UnionFind) : EquivUF uf uf :=
  ⟨rfl, rfl, fun _ => Iff.rfl, fun _ _ => rfl⟩

theorem equivUF_symm {a b : UnionFind} (h : EquivUF a b) : EquivUF b a := by
  obtain ⟨hlen, hsz, hfix, hroot⟩ := h
  exact ⟨hlen.symm, hsz.symm, fun x => (hfix x).symm,
    fun x hx => (hroot x (by omega)).symm⟩

theorem equivUF_trans {a b c : UnionFind} (h1 : EquivUF a b) (h2 : EquivUF b c) :
    EquivUF a c := by
  obtain ⟨hlen1, hsz1, hfix1, hroot1⟩ := h1
  obtain ⟨hlen2, hsz2, hfix2, hroot2⟩ := h2
  exact ⟨hlen1.trans hlen2, hsz1.trans hsz2, fun x => (hfix1 x).trans (hfix2 x),
    fun x hx => (hroot1 x hx).trans (hroot2 x (by omega))⟩

theorem equivUF_fullyConn {a b : UnionFind} (h : EquivUF a b) :
    FullyConn a ↔ FullyConn b := by
  obtain ⟨hlen, hsz, hfix, hroot⟩ := h
  constructor
  · intro hfc i hi
    rcases Nat.eq_zero_or_pos a.parent.length with hz | hp
    · omega
    · rw [← hroot i (by omega), ← hroot 0 (by omega)]
      exact hfc i (by omega)
  · intro hfc i hi
    rcases Nat.eq_zero_or_pos a.parent.length with hz | hp
    · omega
    · rw [hroot i hi, hroot 0 hp]
      exact hfc i (by omega)

theorem union_congr {a b : UnionFind} (ha : Inv a) (hb : Inv b) (heq : EquivUF a b)
    {i j : Nat} (hi : i < a.parent.length) (hj : j < a.parent.length)
    {a' b' : UnionFind} (hua : a.union i j = .ok a') (hub : b.union i j = .ok b') :
    EquivUF a' b' := by
  obtain ⟨hlen, hsz, hfix, hroot⟩ := heq
  obtain ⟨a'', hea, hinva, hlena, hsameA, hmergeA⟩ := union_ok ha hi hj
  obtain ⟨b'', heb, hinvb, hlenb, hsameB, hmergeB⟩ :=
    union_ok hb (by omega : i < b.parent.length) (by omega : j < b.parent.length)
  rw [hua] at hea
  injection hea with hea'
  subst hea'
  rw [hub] at heb
  injection heb with heb'
  subst heb'
  have hri : rootOf a.parent i = rootOf b.parent i := hroot i hi
  have hrj : rootOf a.parent j = rootOf b.parent j := hroot j hj
  by_cases hc : rootOf a.parent i = rootOf a.parent j
  · obtain ⟨hszA, hfixA, hrootA⟩ := hsameA hc
    obtain ⟨hszB, hfixB, hrootB⟩ := hsameB (by rw [← hri, ← hrj]; exact hc)
    refine ⟨by omega, by rw [hszA, hszB, hsz], ?_, ?_⟩
    · intro x
      exact (hfixA x).trans ((hfix x).trans (hfixB x).symm)
    · intro x hx
      rw [hrootA x (by omega), hrootB x (by omega)]
      exact hroot x (by omega)
  · obtain ⟨rWa, rLa, hWa, hLa, hszA, hrootA, hfixA⟩ := hmergeA hc
    obtain ⟨rWb, rLb, hWb, hLb, hszB, hrootB, hfixB⟩ :=
      hmergeB (by rw [← hri, ← hrj]; exact hc)
    have hW : rWa = rWb := by
      rw [hWa, hWb, hri, hrj, hsz]
    have hL : rLa = rLb := by
      rw [hLa, hLb, hri, hrj, hsz]
    refine ⟨by omega, ?_, ?_, ?_⟩
    · rw [hszA, hszB, hsz, hW, hL]
    · intro x
      refine (hfixA x).trans (Iff.trans ?_ (hfixB x).symm)
      rw [hfix x, hL]
    · intro x hx
      rw [hrootA x (by omega), hrootB x (by omega), hroot x (by omega), hW, hL]

theorem unionAll_cons {uf uf1 : UnionFind} {e : Edge} {rest : List Edge}
    (h : uf.union e.2.1 e.2.2 = .ok uf1) :
    unionAll uf (e :: rest) = unionAll uf1 rest := by
  simp only [unionAll, h, ok_bind]

theorem getLastD_irrel {l : List Edge} (h : l ≠ []) (d1 d2 : Edge) :
    l.getLastD d1 = l.getLastD d2 := by
  cases l with
  | nil => exact absurd rfl h
  | cons f t =>
    simp [List.getLastD_eq_getLast?, List.getLast?_eq_getLast (f :: t) h]

theorem part2Loop_cons (ps : List Position) (e : Edge) (l : List Edge) (uf : UnionFind) :
    part2Loop ps (e :: l) uf = (do
      let uf' ← uf.union e.2.1 e.2.2
      let (connected, uf'') ← uf'.all_connected
      if connected then do
        let pi ← readIdx ps e.2.1
        let pj ← readIdx ps e.2.2
        Except.ok (.ok (pi.x * pj.x))
      else part2Loop ps l uf'') := rfl

/-- The first-connecting-edge lemma: if the loop state `uf` is congruent to
the pure fold state `ufF`, no proper nonempty prefix of `es` makes the fold
fully connected, but all of `es` does, then the scan returns the X-product of
the endpoints of the last edge of `es`, never looking at `rest`. -/
theorem part2Loop_first {ps : List Position} :
    ∀ (es : List Edge) (uf ufF : UnionFind) (rest : List Edge),
    Inv uf → Inv ufF → EquivUF uf ufF →
    uf.parent.length = ps.length →
    (∀ e ∈ es, e.2.1 < ps.length ∧ e.2.2 < ps.length) →
    es ≠ [] →
    (∀ m ufm, 1 ≤ m → m < es.length → unionAll ufF (es.take m) = .ok ufm →
      ¬ FullyConn ufm) →
    (∀ ufL, unionAll ufF es = .ok ufL → FullyConn ufL) →
    part2Loop ps (es ++ rest) uf =
      .ok (.ok ((posAt ps (es.getLastD (0, 0, 0)).2.1).x *
        (posAt ps (es.getLastD (0, 0, 0)).2.2).x)) := by
  intro es
  induction es with
  | nil => intro uf ufF rest _ _ _ _ _ hne _ _; exact absurd rfl hne
  | cons e es' ih =>
    intro uf ufF rest hinv hinvF heq hlen hval hne hm hlast
    obtain ⟨he1, he2⟩ := hval e (List.mem_cons_self e es')
    have hlenF : ufF.parent.length = ps.length := by
      obtain ⟨hl, -, -, -⟩ := heq
      omega
    obtain ⟨uf1, hu, hinv1, hlen1, _, _⟩ := union_ok hinv (hlen ▸ he1) (hlen ▸ he2)
    obtain ⟨ufF1, huF, hinvF1, hlenF1, _, _⟩ :=
      union_ok hinvF (hlenF ▸ he1) (hlenF ▸ he2)
    have heq1 : EquivUF uf1 ufF1 :=
      union_congr hinv hinvF heq (hlen ▸ he1) (hlen ▸ he2) hu huF
    have hn1 : 0 < uf1.parent.length := by omega
    obtain ⟨b, uf2, hac, hbiff, hsz2, hlen2, hfix2, hroot2, hinv2⟩ :=
      all_connected_ok hinv1 hn1
    cases es' with
    | nil =>
      have hfcF1 : FullyConn ufF1 := hlast ufF1 (by
        rw [unionAll_cons huF]
        rfl)
      have hfc1 : FullyConn uf1 := (equivUF_fullyConn heq1).mpr hfcF1
      have hb : b = true := hbiff.mpr hfc1
      subst hb
      show part2Loop ps (e :: rest) uf = _
      simp only [part2Loop, hu, ok_bind, hac, ok_bind, if_pos,
        readIdx_getD (hlen ▸ he1 : e.2.1 < ps.length) (⟨0, 0, 0⟩ : Position),
        readIdx_getD (hlen ▸ he2 : e.2.2 < ps.length) (⟨0, 0, 0⟩ : Position)]
      rfl
    | cons f t =>
      have hne' : f :: t ≠ [] := by simp
      have hnotF1 : ¬ FullyConn ufF1 := by
        apply hm 1 ufF1 (by omega) (by simp only [List.length_cons]; omega)
        rw [show (e :: f :: t).take 1 = [e] from rfl, unionAll_cons huF]
        rfl
      have hnot1 : ¬ FullyConn uf1 := fun hfc =>
        hnotF1 ((equivUF_fullyConn heq1).mp hfc)
      have hb : b = false := by
        cases b with
        | false => rfl
        | true => exact absurd (hbiff.mp rfl) hnot1
      subst hb
      have heq2 : EquivUF uf2 ufF1 :=
        equivUF_trans ⟨hlen2, hsz2, hfix2, fun x hx => hroot2 x (by omega)⟩ heq1
      have hstep := ih uf2 ufF1 rest hinv2 hinvF1 heq2 (by omega)
        (fun x hx => hval x (List.mem_cons_of_mem e hx)) hne'
        (fun m ufm hm1 hm2 hu' => by
          simp only [List.length_cons] at hm2
          apply hm (m + 1) ufm (by omega) (by simp only [List.length_cons]; omega)
          rw [show (e :: f :: t).take (m + 1) = e :: (f :: t).take m from rfl,
            unionAll_cons huF]
          exact hu')
        (fun ufL hu' => hlast ufL (by
          rw [unionAll_cons huF]
          exact hu'))
      show part2Loop ps (e :: ((f :: t) ++ rest)) uf = _
      rw [part2Loop_cons]
      simp only [hu, ok_bind, hac, ok_bind, Bool.false_eq_true, reduceIte]
      rw [hstep]
      rw [show (e :: f :: t).getLastD (0, 0, 0) = (f :: t).getLastD (0, 0, 0) from by
        rw [List.getLastD_eq_getLast?, List.getLastD_eq_getLast?,
          List.getLast?_eq_getLast (e :: f :: t) (by simp),
          List.getLast?_eq_getLast (f :: t) hne']
        simp [List.getLast_cons]]

/-! ### Counting and ordering the brute-force pairs -/

theorem sum_range_sub (n : Nat) :
    ((List.range n).map (fun i => n - (i + 1))).sum = n.choose 2 := by
  induction n with
  | zero => rfl
  | succ n ih =>
    rw [List.range_succ_eq_map, List.map_cons, List.map_map]
    have hcongr : (List.range n).map ((fun i => n + 1 - (i + 1)) ∘ Nat.succ) =
        (List.range n).map (fun i => n - (i + 1)) := by
      apply List.map_congr_left
      intro i _
      show n + 1 - (i + 1 + 1) = n - (i + 1)
      omega
    rw [hcongr, List.sum_cons, ih]
    have hcc : (n + 1).choose 2 = n.choose 1 + n.choose 2 := rfl
    rw [hcc, Nat.choose_one_right]
    omega

theorem allPairs_length (ps : List Position) :
    (allPairs ps).length = ps.length.choose 2 := by
  unfold allPairs
  rw [List.length_flatMap]
  simp only [Function.comp_def, List.length_map, List.length_range']
  exact sum_range_sub ps.length

theorem closest_neighbors_length (ps : List Position) (k : Nat) :
    (BruteForceAlgorithm.closest_neighbors ps k).length =
      min k (ps.length.choose 2) := by
  unfold BruteForceAlgorithm.closest_neighbors
  rw [List.length_take, List.length_insertionSort, allPairs_length]

theorem closest_neighbors_sorted (ps : List Position) (k : Nat) :
    (BruteForceAlgorithm.closest_neighbors ps k).Pairwise
      (fun a b : Edge => a.1 ≤ b.1) := by
  have hsorted : ((allPairs ps).insertionSort edgeLE).Pairwise edgeLE :=
    List.sorted_insertionSort edgeLE (allPairs ps)
  have htake : (BruteForceAlgorithm.closest_neighbors ps k).Pairwise edgeLE :=
    hsorted.sublist (List.take_sublist k _)
  exact htake.imp (fun h => h)

theorem allPairs_proj (ps : List Position) :
    (allPairs ps).map (fun e : Edge => (e.2.1, e.2.2)) =
      (List.range ps.length).flatMap (fun i =>
        (List.range' (i + 1) (ps.length - (i + 1))).map (fun j => (i, j))) := by
  unfold allPairs
  rw [List.map_flatMap]
  exact congrArg (List.flatMap (List.range ps.length)) (funext fun i => by
    rw [List.map_map]
    rfl)

theorem allPairs_proj_nodup (ps : List Position) :
    ((allPairs ps).map (fun e : Edge => (e.2.1, e.2.2))).Nodup := by
  rw [allPairs_proj]
  apply List.nodup_flatMap.mpr
  constructor
  · intro i _
    exact (List.nodup_range' _ _).map (fun a b h => by
      injection h)
  · have hlt : (List.range ps.length).Pairwise (· < ·) := List.pairwise_lt_range _
    apply hlt.imp
    intro i i' hii' pr hpr hpr'
    obtain ⟨j, -, rfl⟩ := List.mem_map.mp hpr
    obtain ⟨j', -, hj'⟩ := List.mem_map.mp hpr'
    have : i' = i := congrArg Prod.fst hj'
    omega

theorem mem_allPairs_proj {ps : List Position} {pr : Nat × Nat} :
    pr ∈ (allPairs ps).map (fun e : Edge => (e.2.1, e.2.2)) ↔
      pr.1 < pr.2 ∧ pr.2 < ps.length := by
  rw [List.mem_map]
  constructor
  · rintro ⟨e, he, rfl⟩
    obtain ⟨i, j, hij, hjlen, rfl⟩ := mem_allPairs.mp he
    exact ⟨hij, hjlen⟩
  · rintro ⟨h1, h2⟩
    refine ⟨(distance (posAt ps pr.1) (posAt ps pr.2), pr.1, pr.2), ?_, rfl⟩
    exact mem_allPairs.mpr ⟨pr.1, pr.2, h1, h2, rfl⟩

theorem closest_neighbors_full (ps : List Position) :
    BruteForceAlgorithm.closest_neighbors ps (ps.length.choose 2) =
      (allPairs ps).insertionSort edgeLE := by
  unfold BruteForceAlgorithm.closest_neighbors
  exact List.take_of_length_le (by
    rw [List.length_insertionSort, allPairs_length])

/-! ### Remaining support for the claim theorems -/

theorem readIdx3_err {l : List Nat} (h : l.length < 3) :
    ((do
      let a ← readIdx l 0
      let b ← readIdx l 1
      let c ← readIdx l 2
      Except.ok (a * b * c)) : Except PanicKind Nat) = .error .indexOutOfBounds := by
  match l with
  | [] => rfl
  | [a] => rfl
  | [a, b] => rfl
  | a :: b :: c :: t => exact absurd h (by simp)

theorem find_oob {uf : UnionFind} {i : Nat} (h : uf.parent.length ≤ i) :
    uf.find i = .error .indexOutOfBounds := by
  show UnionFind.findAux (uf.parent.length + 1) uf i = _
  simp only [UnionFind.findAux, readIdx_err h, error_bind]

theorem union_oob {uf : UnionFind} {i : Nat} (j : Nat)
    (h : uf.parent.length ≤ i) :
    uf.union i j = .error .indexOutOfBounds := by
  show (uf.find i >>= _) = _
  rw [find_oob h]
  rfl

theorem take_getLastD {l : List Edge} {t : Nat} (h : t < l.length) (d : Edge) :
    (l.take (t + 1)).getLastD d = l.getD t d := by
  rw [List.take_succ, List.getElem?_eq_getElem h]
  rw [show (some l[t]).toList = [l[t]] from rfl]
  rw [List.getLastD_concat]
  rw [List.getD_eq_getElem?_getD, List.getElem?_eq_getElem h]
  rfl

theorem solution_part_1_unfold (ps : List Position) (N : Nat) :
    solution_part_1 ps N = (do
      let uf ← unionAll (UnionFind.new ps.length)
        (BruteForceAlgorithm.closest_neighbors ps N)
      let circuitSizes ← uf.get_all_circuit_sizes
      let sorted := (circuitSizes.insertionSort (· ≤ ·)).reverse
      let a ← readIdx sorted 0
      let b ← readIdx sorted 1
      let c ← readIdx sorted 2
      Except.ok (a * b * c)) := rfl

theorem solution_part_2_unfold (ps : List Position) (k : Nat) :
    solution_part_2 ps k = part2Loop ps
      (BruteForceAlgorithm.closest_neighbors ps k) (UnionFind.new ps.length) := rfl

/-! ### Claim theorems -/

/-- C7: in every state reachable from `new(n)` by `union` and `find` calls on
valid indices, every parent chain terminates at a root (a fixpoint of the
parent map), `find i` returns exactly that root, and the size stored at the
root of `i` equals the number of indices in `0..n` whose root coincides with
the root of `i`. -/
theorem claim_C7 {n : Nat} {uf : UnionFind} (h : Reachable n uf) :
    ∀ i, i < n →
      (∃ r k, Rooted uf.parent i r k ∧ pa uf.parent r = r) ∧
      (∃ s', uf.find i = .ok (rootOf uf.parent i, s')) ∧
      uf.size.getD (rootOf uf.parent i) 0 =
        ((List.range n).filter
          (fun j => decide (rootOf uf.parent j = rootOf uf.parent i))).length := by
  obtain ⟨hinv, hlen⟩ := reachable_inv h
  subst hlen
  intro i hi
  refine ⟨?_, ?_, ?_⟩
  · obtain ⟨r, k, hrk⟩ := hinv.rooted i hi
    exact ⟨r, k, hrk, hrk.root_fix⟩
  · obtain ⟨s', hf, _⟩ := find_ok hinv hi
    exact ⟨s', hf⟩
  · exact hinv.sizeEq _ (rootOf_lt_of_inv hinv hi) (rootOf_fix_of_inv hinv hi)

/-- C1: in every reachable state with `n ≥ 1`, `all_connected` succeeds and
returns `true` exactly when all `n` indices have the same representative,
which is the value `find` returns for each of them. -/
theorem claim_C1 {n : Nat} {uf : UnionFind} (h : Reachable n uf) (hn : 1 ≤ n) :
    ∃ b uf', uf.all_connected = .ok (b, uf') ∧
      (b = true ↔ ∀ i, i < n → ∀ j, j < n →
        rootOf uf.parent i = rootOf uf.parent j) ∧
      (∀ i, i < n → ∃ s', uf.find i = .ok (rootOf uf.parent i, s')) := by
  obtain ⟨hinv, hlen⟩ := reachable_inv h
  subst hlen
  obtain ⟨b, uf', hac, hbiff, _⟩ := all_connected_ok hinv hn
  refine ⟨b, uf', hac, ?_, fun i hi => ?_⟩
  · rw [hbiff]
    constructor
    · intro hfc i hi j hj
      rw [hfc i hi, hfc j hj]
    · intro hall i hi
      exact hall i hi 0 hn
  · obtain ⟨s', hf, -⟩ := find_ok hinv hi
    exact ⟨s', hf⟩

/-- C6: for valid indices in a reachable state, `union(i, j)` succeeds and
afterwards `find(i)` and `find(j)` return the same root; repeating the same
union is idempotent: it succeeds, changes no size, and changes no root. -/
theorem claim_C6 {n : Nat} {uf : UnionFind} (h : Reachable n uf) {i j : Nat}
    (hi : i < n) (hj : j < n) :
    ∃ uf1, uf.union i j = .ok uf1 ∧
      rootOf uf1.parent i = rootOf uf1.parent j ∧
      (∃ s', uf1.find i = .ok (rootOf uf1.parent i, s')) ∧
      (∃ s', uf1.find j = .ok (rootOf uf1.parent j, s')) ∧
      ∃ uf2, uf1.union i j = .ok uf2 ∧ uf2.size = uf1.size ∧
        ∀ x, x < n → rootOf uf2.parent x = rootOf uf1.parent x := by
  obtain ⟨hinv, hlen⟩ := reachable_inv h
  subst hlen
  obtain ⟨uf1, hu, hinv1, hlen1, hsame, hmerge⟩ := union_ok hinv hi hj
  have hroots1 : rootOf uf1.parent i = rootOf uf1.parent j := by
    by_cases hc : rootOf uf.parent i = rootOf uf.parent j
    · obtain ⟨-, -, hroot⟩ := hsame hc
      rw [hroot i hi, hroot j hj, hc]
    · obtain ⟨rW, rL, hW, hL, -, hroot, -⟩ := hmerge hc
      subst hW
      subst hL
      rw [hroot i hi, hroot j hj]
      by_cases hlt : uf.size.getD (rootOf uf.parent i) 0 <
          uf.size.getD (rootOf uf.parent j) 0
      · simp only [if_pos hlt]
        simp
      · simp only [if_neg hlt]
        simp
  obtain ⟨uf2, hu2, hinv2, hlen2, hsame2, -⟩ :=
    union_ok hinv1 (show i < uf1.parent.length by omega)
      (show j < uf1.parent.length by omega)
  obtain ⟨hsz2, -, hroot2⟩ := hsame2 hroots1
  obtain ⟨s1, hf1, -⟩ := find_ok hinv1 (by omega : i < uf1.parent.length)
  obtain ⟨s2, hf2, -⟩ := find_ok hinv1 (by omega : j < uf1.parent.length)
  exact ⟨uf1, hu, hroots1, ⟨s1, hf1⟩, ⟨s2, hf2⟩, uf2, hu2, hsz2,
    fun x hx => hroot2 x (by omega)⟩

/-- C8: in a reachable state, a self-edge union is a no-op on the partition
and the sizes; with in-range indices neither `find` nor `union` ever reports
an out-of-bounds panic; and an out-of-range index makes both `find` and
`union` fail with the fatal out-of-bounds panic. -/
theorem claim_C8 {n : Nat} {uf : UnionFind} (h : Reachable n uf) :
    (∀ i, i < n → ∃ uf', uf.union i i = .ok uf' ∧ uf'.size = uf.size ∧
      (∀ x, x < n → rootOf uf'.parent x = rootOf uf.parent x) ∧
      (∀ x, pa uf'.parent x = x ↔ pa uf.parent x = x)) ∧
    (∀ i j, i < n → j < n →
      (∃ r s', uf.find i = .ok (r, s')) ∧ (∃ uf', uf.union i j = .ok uf')) ∧
    (∀ i j, n ≤ i → uf.find i = .error .indexOutOfBounds ∧
      uf.union i j = .error .indexOutOfBounds) := by
  obtain ⟨hinv, hlen⟩ := reachable_inv h
  subst hlen
  refine ⟨?_, ?_, ?_⟩
  · intro i hi
    obtain ⟨uf', hu, hinv', hlen', hsame, -⟩ := union_ok hinv hi hi
    obtain ⟨hsz, hfix, hroot⟩ := hsame rfl
    exact ⟨uf', hu, hsz, hroot, hfix⟩
  · intro i j hi hj
    obtain ⟨s', hf, -⟩ := find_ok hinv hi
    obtain ⟨uf', hu, -⟩ := union_ok hinv hi hj
    exact ⟨⟨_, s', hf⟩, uf', hu⟩
  · intro i j hi
    exact ⟨find_oob hi, union_oob j hi⟩

/-- C2: in aggregate mode, when fewer than three distinct circuits remain
after the unions, `solution_part_1` ends in the out-of-bounds panic raised by
indexing the short sorted size list; it never silently computes a product
from fewer than three component sizes. -/
theorem claim_C2 (ps : List Position) (N : Nat) (uf : UnionFind)
    (h1 : unionAll (UnionFind.new ps.length)
      (BruteForceAlgorithm.closest_neighbors ps N) = .ok uf)
    (h2 : componentCount uf < 3) :
    solution_part_1 ps N = .error .indexOutOfBounds := by
  obtain ⟨uf', he, hinv', hlen'⟩ := unionAll_ok
    (BruteForceAlgorithm.closest_neighbors ps N) (UnionFind.new ps.length)
    (new_inv _) (fun e hee => by
      have hv := mem_closest_valid hee
      rw [new_length]
      omega)
  rw [h1] at he
  injection he with he'
  subst he'
  rw [solution_part_1_unfold, h1, ok_bind, get_all_circuit_sizes_ok hinv', ok_bind]
  apply readIdx3_err
  rw [List.length_reverse, List.length_insertionSort, List.length_map]
  exact h2

/-- C3: the brute-force ranker returns `min k C(n,2)` edges, ascending by
weight, each a canonical pair `i < j < n` carrying the distance of the two
points; with `k = C(n,2)` it lists every unordered pair exactly once.  (The
ranker is a pure function of the point list, which is never mutated.) -/
theorem claim_C3 (ps : List Position) (k : Nat) :
    (BruteForceAlgorithm.closest_neighbors ps k).length =
      min k (ps.length.choose 2) ∧
    (BruteForceAlgorithm.closest_neighbors ps k).Pairwise
      (fun a b : Edge => a.1 ≤ b.1) ∧
    (∀ e ∈ BruteForceAlgorithm.closest_neighbors ps k,
      e.2.1 < e.2.2 ∧ e.2.2 < ps.length ∧
        e.1 = distance (posAt ps e.2.1) (posAt ps e.2.2)) ∧
    (k = ps.length.choose 2 →
      ((BruteForceAlgorithm.closest_neighbors ps k).map
        (fun e : Edge => (e.2.1, e.2.2))).Nodup ∧
      ∀ pr : Nat × Nat,
        (pr ∈ (BruteForceAlgorithm.closest_neighbors ps k).map
          (fun e : Edge => (e.2.1, e.2.2))) ↔
          pr.1 < pr.2 ∧ pr.2 < ps.length) := by
  refine ⟨closest_neighbors_length ps k, closest_neighbors_sorted ps k,
    fun e he => mem_closest_valid he, fun hk => ?_⟩
  subst hk
  rw [closest_neighbors_full]
  have hperm : List.Perm
      (((allPairs ps).insertionSort edgeLE).map
        (fun e : Edge => (e.2.1, e.2.2)))
      ((allPairs ps).map (fun e : Edge => (e.2.1, e.2.2))) :=
    (List.perm_insertionSort edgeLE _).map _
  constructor
  · exact hperm.nodup_iff.mpr (allPairs_proj_nodup ps)
  · intro pr
    rw [hperm.mem_iff, mem_allPairs_proj]

/-- C5: with at least two points and an edge budget below the spanning-tree
bound `n - 1`, first-full-connectivity mode returns the NotConnected error. -/
theorem claim_C5 (ps : List Position) (k : Nat) (h2 : 2 ≤ ps.length)
    (hk : k < ps.length - 1) :
    solution_part_2 ps k = .ok (.error .notConnected) := by
  rw [solution_part_2_unfold]
  apply part2Loop_exhaust _ _ (new_inv _) (new_length _)
  · intro e he
    have hv := mem_closest_valid he
    exact ⟨by omega, hv.2.1⟩
  · rw [componentCount_new]
    have hlen := closest_neighbors_length ps k
    omega

/-- C10: with exactly one point the ranker yields no edges, so the scan never
runs the connectivity test and `solution_part_2` returns the NotConnected
error for every budget `k`, although the one-point forest is vacuously fully
connected. -/
theorem claim_C10 (p : Position) (k : Nat) :
    solution_part_2 [p] k = .ok (.error .notConnected) ∧
      FullyConn (UnionFind.new 1) := by
  constructor
  · rw [solution_part_2_unfold]
    have h0 : BruteForceAlgorithm.closest_neighbors [p] k = [] := by
      unfold BruteForceAlgorithm.closest_neighbors
      rw [show allPairs [p] = [] from rfl]
      rw [show ([] : List Edge).insertionSort edgeLE = [] from rfl]
      exact List.take_nil
    rw [h0]
    rfl
  · intro i hi
    rw [new_length] at hi
    have : i = 0 := by omega
    subst this
    rfl

/-- C4: when the `t`-th ranked edge is the first whose union yields full
connectivity, `solution_part_2` returns the product of the X coordinates of
that edge's endpoints, and the result is already determined by the first
`t + 1` edges: any continuation after them leaves the answer unchanged. -/
theorem claim_C4 (ps : List Position) (k t : Nat)
    (ht : t < (BruteForceAlgorithm.closest_neighbors ps k).length)
    (hconn : ConnAfter ps
      ((BruteForceAlgorithm.closest_neighbors ps k).take (t + 1)))
    (hnot : ∀ t', t' < t → ¬ ConnAfter ps
      ((BruteForceAlgorithm.closest_neighbors ps k).take (t' + 1))) :
    solution_part_2 ps k = .ok (.ok
      ((posAt ps ((BruteForceAlgorithm.closest_neighbors ps k).getD t
        (0, 0, 0)).2.1).x *
       (posAt ps ((BruteForceAlgorithm.closest_neighbors ps k).getD t
        (0, 0, 0)).2.2).x)) ∧
    ∀ rest, part2Loop ps
      ((BruteForceAlgorithm.closest_neighbors ps k).take (t + 1) ++ rest)
      (UnionFind.new ps.length) = .ok (.ok
      ((posAt ps ((BruteForceAlgorithm.closest_neighbors ps k).getD t
        (0, 0, 0)).2.1).x *
       (posAt ps ((BruteForceAlgorithm.closest_neighbors ps k).getD t
        (0, 0, 0)).2.2).x)) := by
  set edges := BruteForceAlgorithm.closest_neighbors ps k with hedges
  set es := edges.take (t + 1) with hes
  have heslen : es.length = t + 1 := by
    rw [hes, List.length_take]
    omega
  have hne : es ≠ [] := by
    intro hh
    rw [hh] at heslen
    simp at heslen
  have hval : ∀ e ∈ es, e.2.1 < ps.length ∧ e.2.2 < ps.length := by
    intro e he
    have hv := mem_closest_valid (List.mem_of_mem_take (hes ▸ he))
    exact ⟨by omega, hv.2.1⟩
  have hm : ∀ m ufm, 1 ≤ m → m < es.length →
      unionAll (UnionFind.new ps.length) (es.take m) = .ok ufm →
      ¬ FullyConn ufm := by
    intro m ufm hm1 hm2 hu hfc
    have htake : es.take m = edges.take m := by
      rw [hes, List.take_take]
      congr 1
      omega
    apply hnot (m - 1) (by omega)
    rw [show m - 1 + 1 = m from by omega]
    exact ⟨ufm, htake ▸ hu, hfc⟩
  have hlast : ∀ ufL, unionAll (UnionFind.new ps.length) es = .ok ufL →
      FullyConn ufL := by
    intro ufL hu
    obtain ⟨ufc, hokc, hfcc⟩ := hconn
    rw [hokc] at hu
    injection hu with hu'
    subst hu'
    exact hfcc
  have hmain : ∀ rest, part2Loop ps (es ++ rest) (UnionFind.new ps.length) =
      .ok (.ok ((posAt ps (es.getLastD (0, 0, 0)).2.1).x *
        (posAt ps (es.getLastD (0, 0, 0)).2.2).x)) :=
    fun rest => part2Loop_first es (UnionFind.new ps.length)
      (UnionFind.new ps.length) rest (new_inv _) (new_inv _) (equivUF_refl _)
      (new_length _) hval hne hm hlast
  have hlastval : es.getLastD (0, 0, 0) = edges.getD t (0, 0, 0) := by
    rw [hes]
    exact take_getLastD ht _
  constructor
  · have hsplit : edges = es ++ edges.drop (t + 1) := by
      rw [hes]
      exact (List.take_append_drop (t + 1) edges).symm
    rw [solution_part_2_unfold]
    show part2Loop ps edges (UnionFind.new ps.length) = _
    rw [show part2Loop ps edges (UnionFind.new ps.length) =
        part2Loop ps (es ++ edges.drop (t + 1)) (UnionFind.new ps.length) from by
      rw [← hsplit]]
    rw [hmain (edges.drop (t + 1)), hlastval]
  · intro rest
    rw [hmain rest, hlastval]

/-! ### Witnesses: the claim theorems applied at concrete inputs -/

theorem claim_C1_witness :
    1 ≤ 2 ∧ ∃ b uf', (UnionFind.new 2).all_connected = .ok (b, uf') ∧
      (b = true ↔ ∀ i, i < 2 → ∀ j, j < 2 →
        rootOf (UnionFind.new 2).parent i = rootOf (UnionFind.new 2).parent j) ∧
      (∀ i, i < 2 → ∃ s', (UnionFind.new 2).find i =
        .ok (rootOf (UnionFind.new 2).parent i, s')) :=
  ⟨by decide, claim_C1 (Reachable.base 2) (by decide)⟩

theorem claim_C2_witness :
    (unionAll (UnionFind.new ([⟨0, 0, 0⟩, ⟨0, 0, 1⟩] : List Position).length)
      (BruteForceAlgorithm.closest_neighbors [⟨0, 0, 0⟩, ⟨0, 0, 1⟩] 1) =
        .ok ⟨[0, 0], [2, 1]⟩) ∧
    componentCount ⟨[0, 0], [2, 1]⟩ < 3 ∧
    solution_part_1 [⟨0, 0, 0⟩, ⟨0, 0, 1⟩] 1 = .error .indexOutOfBounds :=
  ⟨by decide, by decide,
    claim_C2 [⟨0, 0, 0⟩, ⟨0, 0, 1⟩] 1 ⟨[0, 0], [2, 1]⟩ (by decide) (by decide)⟩

theorem claim_C3_witness :
    (BruteForceAlgorithm.closest_neighbors
      [⟨0, 0, 0⟩, ⟨0, 0, 1⟩, ⟨0, 0, 2⟩] 3).length =
        min 3 (([⟨0, 0, 0⟩, ⟨0, 0, 1⟩, ⟨0, 0, 2⟩] : List Position).length.choose 2) ∧
    ((BruteForceAlgorithm.closest_neighbors
      [⟨0, 0, 0⟩, ⟨0, 0, 1⟩, ⟨0, 0, 2⟩] 3).map
        (fun e : Edge => (e.2.1, e.2.2))).Nodup :=
  ⟨(claim_C3 [⟨0, 0, 0⟩, ⟨0, 0, 1⟩, ⟨0, 0, 2⟩] 3).1,
    ((claim_C3 [⟨0, 0, 0⟩, ⟨0, 0, 1⟩, ⟨0, 0, 2⟩] 3).2.2.2 (by decide)).1⟩

theorem claim_C4_witness :
    0 < (BruteForceAlgorithm.closest_neighbors [⟨0, 0, 0⟩, ⟨0, 0, 1⟩] 1).length ∧
    solution_part_2 [⟨0, 0, 0⟩, ⟨0, 0, 1⟩] 1 = .ok (.ok
      ((posAt [⟨0, 0, 0⟩, ⟨0, 0, 1⟩]
        ((BruteForceAlgorithm.closest_neighbors [⟨0, 0, 0⟩, ⟨0, 0, 1⟩] 1).getD 0
          (0, 0, 0)).2.1).x *
       (posAt [⟨0, 0, 0⟩, ⟨0, 0, 1⟩]
        ((BruteForceAlgorithm.closest_neighbors [⟨0, 0, 0⟩, ⟨0, 0, 1⟩] 1).getD 0
          (0, 0, 0)).2.2).x)) :=
  ⟨by decide,
    (claim_C4 [⟨0, 0, 0⟩, ⟨0, 0, 1⟩] 1 0 (by decide)
      ⟨⟨[0, 0], [2, 1]⟩, by decide, by decide⟩
      (fun t' ht' => absurd ht' (Nat.not_lt_zero t'))).1⟩

theorem claim_C5_witness :
    2 ≤ ([⟨0, 0, 0⟩, ⟨0, 0, 1⟩] : List Position).length ∧
    0 < ([⟨0, 0, 0⟩, ⟨0, 0, 1⟩] : List Position).length - 1 ∧
    solution_part_2 [⟨0, 0, 0⟩, ⟨0, 0, 1⟩] 0 = .ok (.error .notConnected) :=
  ⟨by decide, by decide,
    claim_C5 [⟨0, 0, 0⟩, ⟨0, 0, 1⟩] 0 (by decide) (by decide)⟩

theorem claim_C6_witness :
    (0 < 2 ∧ 1 < 2) ∧
    ∃ uf1, (UnionFind.new 2).union 0 1 = .ok uf1 ∧
      rootOf uf1.parent 0 = rootOf uf1.parent 1 ∧
      (∃ s', uf1.find 0 = .ok (rootOf uf1.parent 0, s')) ∧
      (∃ s', uf1.find 1 = .ok (rootOf uf1.parent 1, s')) ∧
      ∃ uf2, uf1.union 0 1 = .ok uf2 ∧ uf2.size = uf1.size ∧
        ∀ x, x < 2 → rootOf uf2.parent x = rootOf uf1.parent x :=
  ⟨⟨by decide, by decide⟩,
    claim_C6 (Reachable.base 2) (by decide) (by decide)⟩

theorem claim_C7_witness :
    0 < 2 ∧
      ((∃ r k, Rooted (UnionFind.new 2).parent 0 r k ∧
        pa (UnionFind.new 2).parent r = r) ∧
      (∃ s', (UnionFind.new 2).find 0 =
        .ok (rootOf (UnionFind.new 2).parent 0, s')) ∧
      (UnionFind.new 2).size.getD (rootOf (UnionFind.new 2).parent 0) 0 =
        ((List.range 2).filter (fun j =>
          decide (rootOf (UnionFind.new 2).parent j =
            rootOf (UnionFind.new 2).parent 0))).length) :=
  ⟨by decide, claim_C7 (Reachable.base 2) 0 (by decide)⟩

theorem claim_C8_witness :
    (∃ uf', (UnionFind.new 2).union 0 0 = .ok uf' ∧
      uf'.size = (UnionFind.new 2).size ∧
      (∀ x, x < 2 → rootOf uf'.parent x = rootOf (UnionFind.new 2).parent x) ∧
      (∀ x, pa uf'.parent x = x ↔ pa (UnionFind.new 2).parent x = x)) ∧
    ((∃ r s', (UnionFind.new 2).find 0 = .ok (r, s')) ∧
      (∃ uf', (UnionFind.new 2).union 0 1 = .ok uf')) ∧
    ((UnionFind.new 2).find 5 = .error .indexOutOfBounds ∧
      (UnionFind.new 2).union 5 1 = .error .indexOutOfBounds) :=
  ⟨(claim_C8 (Reachable.base 2)).1 0 (by decide),
    (claim_C8 (Reachable.base 2)).2.1 0 1 (by decide) (by decide),
    (claim_C8 (Reachable.base 2)).2.2 5 1 (by decide)⟩

end Day8
